import Mathlib

/-!
# TodoHighlight: a shallow embedding of `src/extension.js`

The extension keeps its configuration in the closure variables of `activate`
(`isCaseSensitive`, `assembledData`, `decorationTypes`, `patterns`,
`styleForRegExp`, `keywordsPattern`, `settings`, `timeout`) and mutates them from
`init`, `updateDecorations`, `triggerUpdateDecorations` and the command
`todohighlight.listAnnotations`.  Here every one of these functions is a pure
function on an explicit `State`.

What the JavaScript runtime and the editor provide is kept apart from the
extension's own code:

* `Host` bundles `String.prototype.toUpperCase`, the `RegExp` constructor and
  the constants and helpers of `util.js` that the source only refers to;
* `RegExp.exec` follows the ECMAScript algorithm for a regular expression with
  the global flag: it starts at `lastIndex`, moves forward until the pattern
  matches, stores the end of the match in `lastIndex`, and resets `lastIndex` to
  zero when nothing is found;
* `miniHost` is a concrete host with a small backtracking engine (literals, `.`,
  groups, `|`, `*`, `+`, `?`), used to evaluate the code on concrete inputs.

Strings are Lean strings; an offset counts characters.  Objects are property
lists in insertion order, which is the order of `Object.keys` for keys that are
not array indices.  `mathes` and `decorationTypes` are made by `{}`, so a read
of a name that is no own property sees what `Object.prototype` provides under
that name (`isInherited`), and an assignment to `__proto__` adds no own
property (`Obj.put`).
-/

namespace TodoHighlight

/-! ## JavaScript objects -/

/-- A JavaScript object whose property values have type `α`: the own
properties in insertion order. -/
abbrev Obj (α : Type) := List (String × α)

/-- Property read `o[k]`; `none` stands for `undefined`. -/
def Obj.get {α : Type} : Obj α → String → Option α
  | [], _ => none
  | (k', v) :: rest, k => if k' = k then some v else Obj.get rest k

/-- Write of the own property `k`: an existing property keeps its place, a new
one goes last. -/
def Obj.set {α : Type} : Obj α → String → α → Obj α
  | [], k, v => [(k, v)]
  | (k', v') :: rest, k, v =>
    if k' = k then (k', v) :: rest else (k', v') :: Obj.set rest k v

/-- The list `Object.keys(o)`. -/
def Obj.keys {α : Type} (o : Obj α) : List String :=
  o.map Prod.fst

/-- The names of the properties that an object made by `{}` inherits from
`Object.prototype`; each of them is a function or an object, so it is truthy
and is no array. -/
def inheritedNames : List String :=
  ["constructor", "hasOwnProperty", "isPrototypeOf", "propertyIsEnumerable",
    "toLocaleString", "toString", "valueOf", "__proto__", "__defineGetter__",
    "__defineSetter__", "__lookupGetter__", "__lookupSetter__"]

/-- The name is one of `inheritedNames`. -/
def isInherited (k : String) : Bool :=
  inheritedNames.contains k

/-- Assignment `o[k] = v` on an object made by `{}`.  The name `__proto__` is
the accessor of the prototype: assigning to it adds no own property (the
prototype it may replace is not tracked). -/
def Obj.put {α : Type} (o : Obj α) (k : String) (v : α) : Obj α :=
  if k = "__proto__" then o else Obj.set o k v

/-- One source of `Object.assign(target, src)`: every property of `src` is
assigned to `target`, in order. -/
def Obj.assign {α : Type} (target src : Obj α) : Obj α :=
  src.foldl (fun acc kv => Obj.put acc kv.1 kv.2) target

/-- A property value of a style object. -/
inductive Value
  | undefined
  | str (s : String)
  | bool (b : Bool)
  | num (n : Nat)
  deriving DecidableEq, Repr

/-- JavaScript truthiness, as tested by `!x` and `if (x)`. -/
def Value.truthy : Value → Bool
  | .undefined => false
  | .str s => decide (s ≠ "")
  | .bool b => b
  | .num n => decide (n ≠ 0)

/-- A style spec: the options object given to
`window.createTextEditorDecorationType`. -/
abbrev Style := Obj Value

/-- Property read of a style, `undefined` when the property is missing. -/
def Style.prop (o : Style) (k : String) : Value :=
  (Obj.get o k).getD Value.undefined

/-- The constant `vscode.OverviewRulerLane.Right`. -/
def OverviewRulerLane.Right : Value := Value.num 4

/-! ## Regular expressions of the runtime -/

/-- The flags of a regular expression besides `g`, which every expression of
the extension carries. -/
structure Flags where
  ignoreCase : Bool
  multiline : Bool
  deriving DecidableEq, Repr

/-- A compiled pattern: `matchAt t i` is the length of the match of the
pattern that starts exactly at offset `i` of `t`, if there is one.  A match
lies inside the text. -/
structure Matcher where
  matchAt : List Char → Nat → Option Nat
  inBounds : ∀ t i n, matchAt t i = some n → i + n ≤ t.length

/-- A `RegExp` object with the global flag: its source text, flags, compiled
pattern and the mutable `lastIndex`. -/
structure RegExp where
  source : String
  flags : Flags
  matcher : Matcher
  lastIndex : Nat

/-- The result array of `exec`: `match.index` and `match[0]`. -/
structure Match where
  index : Nat
  value : String
  deriving DecidableEq, Repr

/-- First offset at or after `i` where the pattern matches, trying `fuel`
offsets. -/
def search (m : Matcher) (t : List Char) : Nat → Nat → Option (Nat × Nat)
  | 0, _ => none
  | fuel + 1, i =>
    match m.matchAt t i with
    | some n => some (i, n)
    | none => search m t fuel (i + 1)

/-- The method `regexp.exec(text)` of a global regular expression: the match
found (or `null`) and the object with its new `lastIndex`. -/
def RegExp.exec (re : RegExp) (text : String) : Option Match × RegExp :=
  if text.length < re.lastIndex then
    (none, { re with lastIndex := 0 })
  else
    match search re.matcher text.data (text.length + 1 - re.lastIndex) re.lastIndex with
    | none => (none, { re with lastIndex := 0 })
    | some (i, n) =>
      (some ⟨i, ⟨(text.data.drop i).take n⟩⟩, { re with lastIndex := i + n })

/-- What the extension takes from the JavaScript runtime and from `util.js`. -/
structure Host where
  /-- The method `String.prototype.toUpperCase`. -/
  toUpperCase : String → String
  /-- The constructor `new RegExp(source, flags)`; `none` when it throws a
  `SyntaxError`. -/
  newRegExp : String → Flags → Option Matcher
  /-- The constant `util.DEFAULT_STYLE`. -/
  DEFAULT_STYLE : Style
  /-- The helper `util.escapeRegExp`. -/
  escapeRegExp : String → String

/-! ## A concrete host: a small backtracking engine -/

/-- Abstract syntax of the pattern fragment of `miniHost`. -/
inductive Regex
  | empty
  | chr (c : Char)
  | any
  | seq (a b : Regex)
  | alt (a b : Regex)
  | star (a : Regex)
  deriving DecidableEq, Repr

/-- Line terminators, which `.` does not match. -/
def isLineTerminator (c : Char) : Bool :=
  c = '\n' || c = '\r' || c = '\u2028' || c = '\u2029'

/-- Comparison of a pattern character with a text character; under the `i`
flag both are canonicalised to upper case. -/
def charMatches (ignoreCase : Bool) (p c : Char) : Bool :=
  if ignoreCase then p.toUpper = c.toUpper else p = c

/-- Greedy iteration: the lengths matched by zero or more rounds of `step`,
longest attempts first; a round that consumes nothing is rejected. -/
def starLens (step : List Char → List Nat) : Nat → List Char → List Nat
  | 0, _ => [0]
  | fuel + 1, s =>
    (((step s).filter (fun n => 0 < n)).flatMap
      (fun n => (starLens step fuel (s.drop n)).map (fun k => n + k))) ++ [0]

/-- The lengths of the matches of a pattern at the start of `s`, in the order
in which a backtracking matcher tries them. -/
def lens (ignoreCase : Bool) : Regex → List Char → List Nat
  | .empty, _ => [0]
  | .chr p, s =>
    match s with
    | c :: _ => if charMatches ignoreCase p c then [1] else []
    | [] => []
  | .any, s =>
    match s with
    | c :: _ => if isLineTerminator c then [] else [1]
    | [] => []
  | .seq a b, s =>
    (lens ignoreCase a s).flatMap
      (fun n => (lens ignoreCase b (s.drop n)).map (fun k => n + k))
  | .alt a b, s => lens ignoreCase a s ++ lens ignoreCase b s
  | .star a, s => starLens (lens ignoreCase a) s.length s

/-- State of the pattern reader: the enclosing groups, the alternatives and
the terms read so far in the current group, whether the last term may take a
quantifier, and whether the previous character was a backslash. -/
structure Reader where
  stack : List (List Regex × List Regex)
  alts : List Regex
  terms : List Regex
  quantifiable : Bool
  escaped : Bool

/-- Concatenation of the terms of one alternative (kept in reverse). -/
def seqOf (terms : List Regex) : Regex :=
  terms.foldl (fun acc t => Regex.seq t acc) Regex.empty

/-- The disjunction of a group: earlier alternatives are tried first. -/
def groupOf (alts terms : List Regex) : Regex :=
  alts.foldl (fun acc a => Regex.alt a acc) (seqOf terms)

/-- Characters with a syntactic role in a pattern. -/
def isSyntaxChar (c : Char) : Bool :=
  c ∈ ['^', '$', '\\', '.', '*', '+', '?', '(', ')', '[', ']', '\x7b', '\x7d', '|']

/-- Apply a quantifier to the last term read. -/
def quantify (r : Reader) (f : Regex → Regex) : Option Reader :=
  match r.quantifiable, r.terms with
  | true, t :: ts => some { r with terms := f t :: ts, quantifiable := false }
  | _, _ => none

/-- Read one pattern character. -/
def readChar (r : Reader) (c : Char) : Option Reader :=
  if r.escaped then
    if isSyntaxChar c || c = '/' || c = '-' then
      some { r with terms := Regex.chr c :: r.terms, quantifiable := true, escaped := false }
    else none
  else if c = '\\' then some { r with escaped := true }
  else if c = '.' then some { r with terms := Regex.any :: r.terms, quantifiable := true }
  else if c = '*' then quantify r Regex.star
  else if c = '+' then quantify r (fun t => Regex.seq t (Regex.star t))
  else if c = '?' then quantify r (fun t => Regex.alt t Regex.empty)
  else if c = '|' then
    some { r with alts := seqOf r.terms :: r.alts, terms := [], quantifiable := false }
  else if c = '(' then
    some { r with stack := (r.alts, r.terms) :: r.stack, alts := [], terms := [],
                  quantifiable := false }
  else if c = ')' then
    match r.stack with
    | [] => none
    | (alts, terms) :: stack =>
      some { r with stack := stack, alts := alts,
                    terms := groupOf r.alts r.terms :: terms, quantifiable := true }
  else if isSyntaxChar c then none
  else some { r with terms := Regex.chr c :: r.terms, quantifiable := true }

/-- Read a whole pattern.  A pattern with an unbalanced parenthesis, a
quantifier without operand or a dangling backslash is a `SyntaxError`; this
reader also refuses what lies outside its fragment (classes, anchors, braces,
lazy quantifiers, escapes other than of punctuation). -/
def readPattern (source : String) : Option Regex :=
  match source.data.foldl (fun r c => r.bind (fun r => readChar r c))
      (some ⟨[], [], [], false, false⟩) with
  | some r =>
    match r.stack, r.escaped with
    | [], false => some (groupOf r.alts r.terms)
    | _, _ => none
  | none => none

/-- The match of a pattern that starts exactly at offset `i`: the first length
a backtracking matcher finds. -/
def Regex.matchAt (ignoreCase : Bool) (r : Regex) (t : List Char) (i : Nat) : Option Nat :=
  if i ≤ t.length then (lens ignoreCase r (t.drop i)).head? else none

/-- The compiled form of a pattern of the fragment; every length the engine
reports stays inside the text. -/
def Regex.compile (ignoreCase : Bool) (r : Regex) : Matcher where
  matchAt := Regex.matchAt ignoreCase r
  inBounds := by
    have hstar : ∀ step : List Char → List Nat, (∀ s n, n ∈ step s → n ≤ s.length) →
        ∀ fuel s n, n ∈ starLens step fuel s → n ≤ s.length := by
      intro step hstep fuel
      induction fuel with
      | zero =>
        intro s n hn
        simp [starLens] at hn
        omega
      | succ fuel ih =>
        intro s n hn
        simp only [starLens, List.mem_append, List.mem_flatMap, List.mem_filter, List.mem_map,
          List.mem_singleton] at hn
        rcases hn with ⟨a, ⟨ha, _⟩, k, hk, rfl⟩ | rfl
        · have h1 := hstep s a ha
          have h2 := ih (s.drop a) k hk
          simp only [List.length_drop] at h2
          omega
        · omega
    have hlens : ∀ (q : Regex) (s : List Char) (n : Nat),
        n ∈ lens ignoreCase q s → n ≤ s.length := by
      intro q
      induction q with
      | empty =>
        intro s n hn
        simp [lens] at hn
        omega
      | chr p =>
        intro s n hn
        cases s with
        | nil => simp [lens] at hn
        | cons c cs =>
          simp only [lens] at hn
          split at hn
          · simp at hn; simp [hn]
          · simp at hn
      | any =>
        intro s n hn
        cases s with
        | nil => simp [lens] at hn
        | cons c cs =>
          simp only [lens] at hn
          split at hn
          · simp at hn
          · simp at hn; simp [hn]
      | seq a b iha ihb =>
        intro s n hn
        simp only [lens, List.mem_flatMap, List.mem_map] at hn
        rcases hn with ⟨x, hx, k, hk, rfl⟩
        have h1 := iha s x hx
        have h2 := ihb (s.drop x) k hk
        simp only [List.length_drop] at h2
        omega
      | alt a b iha ihb =>
        intro s n hn
        simp only [lens, List.mem_append] at hn
        rcases hn with h | h
        · exact iha s n h
        · exact ihb s n h
      | star a iha =>
        intro s n hn
        simp only [lens] at hn
        exact hstar (lens ignoreCase a) iha s.length s n hn
    intro t i n h
    unfold Regex.matchAt at h
    split at h
    · have hmem : n ∈ lens ignoreCase r (t.drop i) := List.mem_of_mem_head? h
      have hle := hlens r (t.drop i) n hmem
      simp only [List.length_drop] at hle
      omega
    · simp at h

/-- Upper-casing of one character by `toUpperCase`, for the ASCII letters and
for `ß`, which becomes `SS`; other characters are left as they are. -/
def upperChar (c : Char) : List Char :=
  if c = '\u00df' then ['S', 'S'] else [c.toUpper]

/-- A host for evaluating the code: upper-casing by `upperChar`, the pattern
reader and backtracking engine above, a default style with the two colours,
and an `escapeRegExp` that puts a backslash before every punctuation character
of the pattern syntax. -/
def miniHost : Host where
  toUpperCase := fun s => ⟨s.data.flatMap upperChar⟩
  newRegExp := fun source flags => (readPattern source).map (Regex.compile flags.ignoreCase)
  DEFAULT_STYLE := [("color", Value.str "#2196f3"), ("backgroundColor", Value.str "#ffeb3b")]
  escapeRegExp := fun s =>
    ⟨s.data.flatMap
      (fun c => if isSyntaxChar c || c = '/' || c = '-' then ['\\', c] else [c])⟩

/-! ## The extension's data -/

/-- A range of the document, by the two offsets that the source hands to
`document.positionAt`. -/
structure Range where
  startOffset : Nat
  endOffset : Nat
  deriving DecidableEq, Repr

/-- The decoration option `{ range: new vscode.Range(startPos, endPos) }`. -/
structure Decoration where
  range : Range
  deriving DecidableEq, Repr

/-- The second argument of `setDecorations` as the source computes it
(`mathes[v] ? mathes[v] : []`): an array of decorations or, when `v` names no
own property of `mathes` but an inherited one, that inherited value. -/
inductive RangeOption
  | ranges (ds : List Decoration)
  | inherited (name : String)
  deriving DecidableEq, Repr

/-- An entry `{ block, inline }` of `decorationTypes`; a decoration type made
by the editor is known by its handle. -/
structure DecorationType where
  block : Nat
  inline : Nat
  deriving DecidableEq, Repr

/-- An element `{ text, regexp }` of `patterns`. -/
structure Pattern where
  text : String
  regexp : RegExp

/-- An element of the array `patterns`: a bare pattern text, as assigned
before compilation, or a compiled `{ text, regexp }`. -/
inductive PatternEntry
  | raw (p : String)
  | compiled (p : Pattern)

/-- A keyword rule of the setting `keywords`. -/
structure KeywordRule where
  keyword : String
  styleOverrides : Style
  deriving DecidableEq, Repr

/-- The configuration section `todohighlight`. -/
structure Settings where
  isEnable : Bool
  isCaseSensitive : Bool
  keywordsPattern : String
  defaultStyle : Style
  keywords : List KeywordRule
  deriving DecidableEq, Repr

/-- The errors the code can raise. -/
inductive JSError
  | syntaxError
  | typeError
  | referenceError
  deriving DecidableEq, Repr

/-- How a run of a piece of code ends: it returns, it throws, or it is still
iterating a loop after the number of iterations allowed to it. -/
inductive Outcome (σ : Type)
  | done (s : σ)
  | throws (e : JSError) (s : σ)
  | running (s : σ)

/-- The state in which a run ends or stands. -/
def Outcome.state {σ : Type} : Outcome σ → σ
  | .done s => s
  | .throws _ s => s
  | .running s => s

/-- The run returned normally. -/
def Outcome.isDone {σ : Type} : Outcome σ → Bool
  | .done _ => true
  | _ => false

/-- The run raised an error. -/
def Outcome.error? {σ : Type} : Outcome σ → Option JSError
  | .throws e _ => some e
  | _ => none

/-- The argument handed to `util.searchAnnotations`. -/
inductive SearchArg
  | patterns (ps : List PatternEntry)
  | regexps (rs : List RegExp)

/-- The variables of `activate`, the implicit global `searchPattern`, and a
record of the calls made to the editor. -/
structure State where
  settings : Settings
  /-- The text of the active editor's document, if there is an editor. -/
  activeEditor : Option String
  isCaseSensitive : Bool
  keywordsPattern : String
  assembledData : Option (Obj Style)
  decorationTypes : Obj DecorationType
  patterns : List PatternEntry
  styleForRegExp : Style
  /-- The implicit global `searchPattern`; `none` while it is undeclared. -/
  searchPattern : Option (List RegExp)
  /-- The styles given to `window.createTextEditorDecorationType`, in order;
  the handle of a decoration type is its position here. -/
  created : List Style
  /-- The calls `activeEditor.setDecorations(decorationType, rangeOption)`, in
  order; the first component is the handle, `none` for `undefined`. -/
  calls : List (Option Nat × RangeOption)
  /-- The calls `util.searchAnnotations(workspaceState, arg, ...)`, in order. -/
  searches : List SearchArg

/-- White space as removed by `String.prototype.trim`. -/
def isWhiteSpace (c : Char) : Bool :=
  c ∈ ['\t', '\n', '\x0b', '\x0c', '\r', ' ', '\u00a0', '\u1680', '\u2000', '\u2001',
    '\u2002', '\u2003', '\u2004', '\u2005', '\u2006', '\u2007', '\u2008', '\u2009',
    '\u200a', '\u2028', '\u2029', '\u202f', '\u205f', '\u3000', '\ufeff']

/-- The test `keywordsPattern.trim()` of the source: the trimmed string is
truthy, that is, not empty. -/
def trimTruthy (s : String) : Bool :=
  s.data.any (fun c => !isWhiteSpace c)

/-- The key of a class: `v` itself, or `v.toUpperCase()` when
`isCaseSensitive` is false. -/
def normalizeKey (host : Host) (isCaseSensitive : Bool) (v : String) : String :=
  if isCaseSensitive then v else host.toUpperCase v

/-- Modelled from the spec: `util.getAssembledData`, whose code is not part of
the sources at hand.  Every rule with a keyword yields the class key
(upper-cased when not case sensitive) and the merge of the built-in default
style, the user's default style and the rule's own overrides; a later rule for
the same class replaces the earlier one; a rule without keyword text is
dropped. -/
def getAssembledData (host : Host) (keywords : List KeywordRule) (customDefaultStyle : Style)
    (isCaseSensitive : Bool) : Obj Style :=
  keywords.foldl
    (fun result rule =>
      if trimTruthy rule.keyword then
        Obj.set result (normalizeKey host isCaseSensitive rule.keyword)
          (Obj.assign (Obj.assign (Obj.assign [] host.DEFAULT_STYLE) customDefaultStyle)
            rule.styleOverrides)
      else result)
    []

/-! ## `init` -/

/-- The array method `patterns.map(p => ({ text: p, regexp: new RegExp(p, flags) }))`
of the last line of `init`; `none` when one constructor call throws. -/
def compileAll (host : Host) (flags : Flags) : List String → Option (List PatternEntry)
  | [] => some []
  | p :: ps =>
    match host.newRegExp p flags with
    | none => none
    | some m =>
      (compileAll host flags ps).map
        (fun rest => PatternEntry.compiled ⟨p, ⟨p, flags, m, 0⟩⟩ :: rest)

/-- The style merged for one class in `init`: the ruler lane, then the
assembled style of the class, then the fallback of `overviewRulerColor` to
`backgroundColor`. -/
def mergedStyleOf (assembled : Option Style) : Style :=
  let mergedStyle :=
    Obj.assign (Obj.assign [] [("overviewRulerLane", OverviewRulerLane.Right)])
      (assembled.getD [])
  if !(Style.prop mergedStyle "overviewRulerColor").truthy then
    Obj.set mergedStyle "overviewRulerColor" (Style.prop mergedStyle "backgroundColor")
  else mergedStyle

/-- One round of the `forEach` over `Object.keys(assembledData)` in `init`,
on the pair of `decorationTypes` and the editor's created decoration types. -/
def addDecorationType (host : Host) (isCaseSensitive : Bool) (assembledData : Obj Style)
    (acc : Obj DecorationType × List Style) (v : String) : Obj DecorationType × List Style :=
  let v := normalizeKey host isCaseSensitive v
  let mergedStyle := mergedStyleOf (Obj.get assembledData v)
  let block := acc.2.length
  if (Style.prop mergedStyle "isWholeLine").truthy then
    (Obj.put acc.1 v ⟨block, block + 1⟩,
      acc.2 ++ [mergedStyle, Obj.set mergedStyle "isWholeLine" (Value.bool false)])
  else
    (Obj.put acc.1 v ⟨block, block⟩, acc.2 ++ [mergedStyle])

/-- The shared style of single-pattern mode, as `init` builds it. -/
def sharedStyle (host : Host) (customDefaultStyle : Style) : Style :=
  Obj.assign (Obj.assign (Obj.assign [] host.DEFAULT_STYLE) customDefaultStyle)
    [("overviewRulerLane", OverviewRulerLane.Right)]

/-- The state of `init` just before its last line: all assignments made, the
array `patterns` still holding the pattern texts. -/
def initAssign (host : Host) (settings : Settings) (s : State) : State :=
  let customDefaultStyle := settings.defaultStyle
  let s := { s with keywordsPattern := settings.keywordsPattern,
                    isCaseSensitive := settings.isCaseSensitive,
                    decorationTypes := [] }
  if trimTruthy s.keywordsPattern then
    { s with styleForRegExp := sharedStyle host customDefaultStyle,
             patterns := [PatternEntry.raw s.keywordsPattern] }
  else
    let assembledData :=
      getAssembledData host settings.keywords customDefaultStyle s.isCaseSensitive
    let acc := (Obj.keys assembledData).foldl
      (addDecorationType host s.isCaseSensitive assembledData) (s.decorationTypes, s.created)
    { s with assembledData := some assembledData,
             decorationTypes := acc.1,
             created := acc.2,
             patterns := (Obj.keys assembledData).map PatternEntry.raw }

/-- The text of an element of `patterns` as the last line of `init` reads it. -/
def PatternEntry.source : PatternEntry → String
  | .raw p => p
  | .compiled p => p.text

/-- The function `init(settings)`. -/
def init (host : Host) (settings : Settings) (s : State) : Outcome State :=
  let s := initAssign host settings s
  match compileAll host ⟨!s.isCaseSensitive, true⟩ (s.patterns.map PatternEntry.source) with
  | some ps => .done { s with patterns := ps }
  | none => .throws .syntaxError s

/-- The handler of `workspace.onDidChangeConfiguration`, up to the call of
`triggerUpdateDecorations`. -/
def onDidChangeConfiguration (host : Host) (newSettings : Settings) (s : State) :
    Outcome State :=
  let s := { s with settings := newSettings }
  if !s.settings.isEnable then .done s else init host s.settings s

/-! ## `updateDecorations` -/

/-- What the scan loops of `updateDecorations` write: the local `mathes`, the
shared `decorationTypes`, and the editor's created decoration types. -/
structure Scan where
  mathes : Obj (List Decoration)
  decorationTypes : Obj DecorationType
  created : List Style

/-- The ranges stored under an own key of `mathes`, none when there is no such
own key. -/
def rangesOf (mathes : Obj (List Decoration)) (k : String) : List Decoration :=
  (Obj.get mathes k).getD []

/-- The statement `if (mathes[pattern]) mathes[pattern].push(decoration) else
mathes[pattern] = [decoration]` (source lines 104 to 108).  When `pattern` is
no own property of `mathes` but names an inherited one, `mathes[pattern]` is
that truthy value, it has no `push`, and the call raises a `TypeError`:
`none`. -/
def pushDecoration (mathes : Obj (List Decoration)) (pattern : String)
    (decoration : Decoration) : Option (Obj (List Decoration)) :=
  match Obj.get mathes pattern with
  | some ds => some (Obj.set mathes pattern (ds ++ [decoration]))
  | none =>
    if isInherited pattern then none else some (Obj.set mathes pattern [decoration])

/-- Body of the `while` loop for one match (source lines 93 to 113); `none`
when it raises a `TypeError`.  The test `!decorationTypes[pattern]` sees an
inherited property as well as an own one.  The source also computes
`matchedValue` (the matched text, upper-cased when not case sensitive) and
never reads it. -/
def recordMatch (s : State) (pattern : String) (m : Match) (sc : Scan) : Option Scan :=
  match pushDecoration sc.mathes pattern ⟨⟨m.index, m.index + m.value.length⟩⟩ with
  | none => none
  | some mathes =>
    if trimTruthy s.keywordsPattern && (Obj.get sc.decorationTypes pattern).isNone
        && !isInherited pattern then
      some { mathes := mathes,
             decorationTypes :=
               Obj.set sc.decorationTypes pattern ⟨sc.created.length, sc.created.length⟩,
             created := sc.created ++ [s.styleForRegExp] }
    else some { sc with mathes := mathes }

/-- The loop `while (match = regexp.exec(text))`, run for at most `fuel`
calls of `exec`. -/
def whileExec (s : State) (text pattern : String) : Nat → RegExp → Scan → Outcome (RegExp × Scan)
  | 0, re, sc => .running (re, sc)
  | fuel + 1, re, sc =>
    match re.exec text with
    | (none, re') => .done (re', sc)
    | (some m, re') =>
      match recordMatch s pattern m sc with
      | none => .throws .typeError (re', sc)
      | some sc' => whileExec s text pattern fuel re' sc'

/-- The ranges of the successive matches that `exec` reports on `text`, each
search starting where the previous match ended; at most `fuel` calls of
`exec`. -/
def successiveMatches (text : String) : Nat → RegExp → List Decoration
  | 0, _ => []
  | fuel + 1, re =>
    match re.exec text with
    | (none, _) => []
    | (some m, re') =>
      ⟨⟨m.index, m.index + m.value.length⟩⟩ :: successiveMatches text fuel re'

/-- Put the first element of `patterns`, with its regular expression as the
loop left it, back in front of the others. -/
def rejoin (p : Pattern) (rest : List PatternEntry) (r : RegExp × Scan) :
    List PatternEntry × Scan :=
  (PatternEntry.compiled { p with regexp := r.1 } :: rest, r.2)

/-- The loop `for (var i = 0; i < patterns.length; i++)`; every inner loop
gets `fuel` calls of `exec`.  Reading `regexp.exec` on a bare pattern text
raises a `TypeError`. -/
def forPatterns (s : State) (text : String) (fuel : Nat) :
    List PatternEntry → Scan → Outcome (List PatternEntry × Scan)
  | [], sc => .done ([], sc)
  | .raw p :: rest, sc => .throws .typeError (.raw p :: rest, sc)
  | .compiled p :: rest, sc =>
    match whileExec s text p.text fuel p.regexp sc with
    | .done r =>
      match forPatterns s text fuel rest r.2 with
      | .done q => .done (rejoin p q.1 (r.1, q.2))
      | .throws e q => .throws e (rejoin p q.1 (r.1, q.2))
      | .running q => .running (rejoin p q.1 (r.1, q.2))
    | .throws e r => .throws e (rejoin p rest r)
    | .running r => .running (rejoin p rest r)

/-- The first half of `updateDecorations`: `mathes = {}` and the two loops. -/
def scan (s : State) (text : String) (fuel : Nat) : Outcome (List PatternEntry × Scan) :=
  forPatterns s text fuel s.patterns ⟨[], s.decorationTypes, s.created⟩

/-- The handle on which the `forEach` body calls `setDecorations`. -/
def DecorationType.target (d : DecorationType) : Nat :=
  if d.inline = d.block then d.inline else d.block

/-- The value of `mathes[v] ? mathes[v] : []` (source line 121). -/
def rangeOptionOf (mathes : Obj (List Decoration)) (v : String) : RangeOption :=
  match Obj.get mathes v with
  | some ds => RangeOption.ranges ds
  | none => if isInherited v then RangeOption.inherited v else RangeOption.ranges []

/-- The loop `Object.keys(decorationTypes).forEach(...)` (source lines 117 to
151), adding to the record of `setDecorations` calls.  When `v` names neither
an own nor an inherited property of `decorationTypes`, reading `.inline` of
`undefined` raises a `TypeError`; when it names an inherited one only, `.inline`
and `.block` of that value are both `undefined` and `setDecorations` is called
with `undefined`. -/
def forEachKey (host : Host) (s : State) (mathes : Obj (List Decoration))
    (decorationTypes : Obj DecorationType) :
    List String → List (Option Nat × RangeOption) → Outcome (List (Option Nat × RangeOption))
  | [], calls => .done calls
  | v :: vs, calls =>
    let v := normalizeKey host s.isCaseSensitive v
    let rangeOption :=
      if s.settings.isEnable then rangeOptionOf mathes v else RangeOption.ranges []
    match Obj.get decorationTypes v with
    | some decorationType =>
      forEachKey host s mathes decorationTypes vs
        (calls ++ [(some decorationType.target, rangeOption)])
    | none =>
      if isInherited v then
        forEachKey host s mathes decorationTypes vs (calls ++ [(none, rangeOption)])
      else .throws .typeError calls

/-- The state after the scan loops, with the given record of calls. -/
def afterScan (s : State) (r : List PatternEntry × Scan)
    (calls : List (Option Nat × RangeOption)) : State :=
  { s with patterns := r.1, decorationTypes := r.2.decorationTypes,
           created := r.2.created, calls := calls }

/-- The function `updateDecorations()`. -/
def updateDecorations (host : Host) (fuel : Nat) (s : State) : Outcome State :=
  match s.activeEditor with
  | none => .done s
  | some text =>
    match scan s text fuel with
    | .done r =>
      match forEachKey host s r.2.mathes r.2.decorationTypes
          (Obj.keys r.2.decorationTypes) s.calls with
      | .done calls => .done (afterScan s r calls)
      | .throws e calls => .throws e (afterScan s r calls)
      | .running calls => .running (afterScan s r calls)
    | .throws e r => .throws e (afterScan s r s.calls)
    | .running r => .running (afterScan s r s.calls)

/-! ## The command `todohighlight.listAnnotations` -/

/-- The array `patterns.map(p => new RegExp(annotationType, flags))`; `none`
when a constructor call throws. -/
def compileCopies (host : Host) (flags : Flags) (annotationType : String) :
    List PatternEntry → Option (List RegExp)
  | [] => some []
  | _ :: ps =>
    match host.newRegExp annotationType flags with
    | none => none
    | some m =>
      (compileCopies host flags annotationType ps).map
        (fun rest => ⟨annotationType, flags, m, 0⟩ :: rest)

/-- The command `todohighlight.listAnnotations`; `choice` is what the quick
pick of `util.chooseAnnotationType` resolves to (`none` when dismissed). -/
def listAnnotations (host : Host) (choice : Option String) (s : State) : Outcome State :=
  if trimTruthy s.keywordsPattern then
    .done { s with searches := s.searches ++ [SearchArg.patterns s.patterns] }
  else
    match s.assembledData with
    | none => .done s
    | some _ =>
      match choice with
      | none => .done s
      | some annotationType =>
        if annotationType = "" then .done s
        else if annotationType ≠ "ALL" then
          match compileCopies host ⟨!s.isCaseSensitive, false⟩
              (host.escapeRegExp annotationType) s.patterns with
          | none => .throws .syntaxError s
          | some rs =>
            .done { s with searchPattern := some rs,
                           searches := s.searches ++ [SearchArg.regexps rs] }
        else
          match s.searchPattern with
          | none => .throws .referenceError s
          | some rs => .done { s with searches := s.searches ++ [SearchArg.regexps rs] }

/-! ## `triggerUpdateDecorations` and the timers of the event loop -/

/-- The variable `timeout`, the timers of the event loop that wait to fire,
the next fresh timer handle, and the number of times a timer has called
`updateDecorations`. -/
structure Scheduler where
  timeout : Option Nat
  pending : List Nat
  nextHandle : Nat
  runs : Nat
  deriving DecidableEq, Repr

/-- The scheduler when `activate` starts: `timeout = null`, no timer. -/
def Scheduler.start : Scheduler :=
  ⟨none, [], 1, 0⟩

/-- The function `triggerUpdateDecorations()`: `clearTimeout` on the stored
handle, then `setTimeout(updateDecorations, 0)`. -/
def triggerUpdateDecorations (s : Scheduler) : Scheduler :=
  let pending :=
    match s.timeout with
    | some t => if t ≠ 0 then s.pending.filter (fun h => h ≠ t) else s.pending
    | none => s.pending
  { s with timeout := some s.nextHandle,
           pending := pending ++ [s.nextHandle],
           nextHandle := s.nextHandle + 1 }

/-- The event loop fires the oldest waiting timer: it leaves the waiting list
and calls `updateDecorations`. -/
def fire (s : Scheduler) : Scheduler :=
  match s.pending with
  | [] => s
  | _ :: rest => { s with pending := rest, runs := s.runs + 1 }

/-- What can happen to the scheduler. -/
inductive Event
  | trigger
  | fire
  deriving DecidableEq, Repr

/-- One event. -/
def Scheduler.step (s : Scheduler) : Event → Scheduler
  | .trigger => triggerUpdateDecorations s
  | .fire => fire s

/-- A sequence of events, from left to right. -/
def Scheduler.run (s : Scheduler) (events : List Event) : Scheduler :=
  events.foldl Scheduler.step s

/-- The scheduler is sound: at most the timer stored in `timeout` waits, and
handles are positive. -/
def Scheduler.Sound (s : Scheduler) : Prop :=
  (s.pending = [] ∨ ∃ t, s.pending = [t] ∧ s.timeout = some t) ∧
    (∀ t, s.timeout = some t → 0 < t) ∧ 0 < s.nextHandle

/-! ## Occurrences of a keyword -/

/-- The characters of `keyword` stand at the start of `text`, letter case
apart. -/
def startsWithAnyCase : List Char → List Char → Bool
  | [], _ => true
  | _ :: _, [] => false
  | k :: ks, c :: cs => decide (k.toUpper = c.toUpper) && startsWithAnyCase ks cs

/-- The pattern that reads the given characters one after another. -/
def literal (cs : List Char) : Regex :=
  cs.foldr (fun c acc => Regex.seq (Regex.chr c) acc) Regex.empty

/-- The keyword occurs in the text at offset `i`, in whatever letter case. -/
def occursAt (keyword text : String) (i : Nat) : Bool :=
  decide (i ≤ text.length) && startsWithAnyCase keyword.data (text.data.drop i)

/-- A keyword of ASCII characters none of which has a role in the pattern
syntax. -/
def isPlain (keyword : String) : Bool :=
  keyword.data.all (fun c => decide (c.toNat < 128) && !isSyntaxChar c)

/-! ## Starting the extension -/

/-- The variables when `activate` starts, before `init` has assigned them,
with the configuration read and the active document (if any). -/
def State.atActivation (settings : Settings) (document : Option String) : State :=
  { settings := settings, activeEditor := document, isCaseSensitive := true,
    keywordsPattern := "", assembledData := none, decorationTypes := [], patterns := [],
    styleForRegExp := [], searchPattern := none, created := [], calls := [], searches := [] }

/-- The call `init(settings)` at the start of `activate`. -/
def activated (host : Host) (settings : Settings) (document : Option String) : Outcome State :=
  init host settings (State.atActivation settings document)

/-- A configuration with the given switches, pattern and keywords, and no
style overrides. -/
def Settings.plain (isEnable isCaseSensitive : Bool) (keywordsPattern : String)
    (keywords : List String) : Settings :=
  { isEnable := isEnable, isCaseSensitive := isCaseSensitive,
    keywordsPattern := keywordsPattern, defaultStyle := [],
    keywords := keywords.map (fun k => ⟨k, []⟩) }

/-- The source texts and `i` flags of the matchers handed to the search. -/
def SearchArg.sources : SearchArg → List (String × Bool)
  | .patterns ps => ps.map (fun p => (p.source, false))
  | .regexps rs => rs.map (fun r => (r.source, r.flags.ignoreCase))

/-- An element of `patterns` is a bare pattern text. -/
def PatternEntry.isRaw : PatternEntry → Bool
  | .raw _ => true
  | .compiled _ => false

/-- The regular expression that `init` compiles from the pattern `a*` under
`miniHost`, case sensitive. -/
def starRegExp : RegExp :=
  ⟨"a*", ⟨false, true⟩, Regex.compile false (Regex.seq (Regex.star (Regex.chr 'a')) Regex.empty), 0⟩

/-- The first match that the first matcher of `patterns` reports on a text. -/
def firstMatch (s : State) (text : String) : Option Match :=
  match s.patterns with
  | PatternEntry.compiled p :: _ => (p.regexp.exec text).1
  | _ => none

/-- The background and ruler colours of the styles handed to the editor. -/
def colours (created : List Style) : List (Value × Value) :=
  created.map (fun st => (Style.prop st "backgroundColor", Style.prop st "overviewRulerColor"))

/-- A user default style with a background colour only. -/
def redBackground : Style :=
  [("backgroundColor", Value.str "#ff0000")]

/-! ## Properties of objects -/

theorem Obj.get_set_self {α : Type} (o : Obj α) (k : String) (v : α) :
    Obj.get (Obj.set o k v) k = some v := by
  induction o with
  | nil => simp [Obj.set, Obj.get]
  | cons kv rest ih =>
    obtain ⟨k', v'⟩ := kv
    by_cases h : k' = k
    · simp [Obj.set, Obj.get, h]
    · simp [Obj.set, Obj.get, h, ih]

theorem Obj.get_set_ne {α : Type} (o : Obj α) (k k' : String) (v : α) (h : k ≠ k') :
    Obj.get (Obj.set o k v) k' = Obj.get o k' := by
  induction o with
  | nil => simp [Obj.set, Obj.get, h]
  | cons kv rest ih =>
    obtain ⟨k₁, v₁⟩ := kv
    by_cases h1 : k₁ = k
    · subst h1
      simp [Obj.set, Obj.get, h]
    · by_cases h2 : k₁ = k'
      · subst h2
        simp [Obj.set, Obj.get, h1]
      · simp [Obj.set, Obj.get, h1, h2, ih]

theorem Obj.get_eq_none_iff {α : Type} (o : Obj α) (k : String) :
    Obj.get o k = none ↔ k ∉ Obj.keys o := by
  induction o with
  | nil => simp [Obj.get, Obj.keys]
  | cons kv rest ih =>
    obtain ⟨k', v'⟩ := kv
    by_cases h : k' = k
    · simp [Obj.get, Obj.keys, h]
    · have h' : ¬ k = k' := fun e => h e.symm
      simp only [Obj.keys] at ih
      simp [Obj.get, Obj.keys, h, h', ih]

theorem Obj.keys_set {α : Type} (o : Obj α) (k : String) (v : α) :
    Obj.keys (Obj.set o k v) = if k ∈ Obj.keys o then Obj.keys o else Obj.keys o ++ [k] := by
  induction o with
  | nil => simp [Obj.set, Obj.keys]
  | cons kv rest ih =>
    obtain ⟨k', v'⟩ := kv
    simp only [Obj.keys] at ih
    by_cases h : k' = k
    · simp [Obj.set, Obj.keys, h]
    · have h' : ¬ k = k' := fun e => h e.symm
      simp only [Obj.set, Obj.keys, h, if_false, List.map_cons, List.mem_cons, h', false_or, ih]
      split <;> simp

theorem Obj.mem_keys_set {α : Type} (o : Obj α) (k k' : String) (v : α) :
    k' ∈ Obj.keys (Obj.set o k v) ↔ k' = k ∨ k' ∈ Obj.keys o := by
  rw [Obj.keys_set]
  split
  · constructor
    · intro h; exact Or.inr h
    · rintro (rfl | h)
      · assumption
      · exact h
  · simp [or_comm]

theorem Obj.keys_set_nodup {α : Type} (o : Obj α) (k : String) (v : α)
    (h : (Obj.keys o).Nodup) : (Obj.keys (Obj.set o k v)).Nodup := by
  rw [Obj.keys_set]
  split
  · exact h
  · rename_i hk
    exact List.Nodup.append h (List.nodup_singleton k) (by simpa using hk)

theorem Obj.mem_keys_put {α : Type} (o : Obj α) (k k' : String) (v : α) :
    k' ∈ Obj.keys (Obj.put o k v) ↔ (k' = k ∧ k ≠ "__proto__") ∨ k' ∈ Obj.keys o := by
  unfold Obj.put
  split
  · rename_i h
    constructor
    · intro hk
      exact Or.inr hk
    · rintro (⟨_, hne⟩ | hk)
      · exact absurd h hne
      · exact hk
  · rename_i h
    rw [Obj.mem_keys_set]
    constructor
    · rintro (hk | hk)
      · exact Or.inl ⟨hk, h⟩
      · exact Or.inr hk
    · rintro (⟨hk, _⟩ | hk)
      · exact Or.inl hk
      · exact Or.inr hk

theorem isInherited_proto : isInherited "__proto__" = true := by
  decide

/-! ## Properties of `exec` and of the scan loops -/

theorem search_some (m : Matcher) (t : List Char) :
    ∀ fuel i j n, search m t fuel i = some (j, n) → i ≤ j ∧ m.matchAt t j = some n := by
  intro fuel
  induction fuel with
  | zero =>
    intro i j n h
    simp [search] at h
  | succ fuel ih =>
    intro i j n h
    simp only [search] at h
    split at h
    · rename_i k hk
      simp only [Option.some.injEq, Prod.mk.injEq] at h
      obtain ⟨rfl, rfl⟩ := h
      exact ⟨le_refl _, hk⟩
    · have h' := ih (i + 1) j n h
      exact ⟨by omega, h'.2⟩

theorem exec_some (re : RegExp) (text : String) (m : Match) (re' : RegExp)
    (h : re.exec text = (some m, re')) :
    re.lastIndex ≤ m.index ∧
      re.matcher.matchAt text.data m.index = some m.value.length ∧
      m.index + m.value.length ≤ text.length ∧
      re' = { re with lastIndex := m.index + m.value.length } := by
  unfold RegExp.exec at h
  split at h
  · exact absurd (congrArg Prod.fst h) (by simp)
  · split at h
    · exact absurd (congrArg Prod.fst h) (by simp)
    · rename_i i n hs
      simp only [Prod.mk.injEq, Option.some.injEq] at h
      obtain ⟨hm, hre⟩ := h
      obtain ⟨hle, hmatch⟩ := search_some re.matcher text.data _ _ _ _ hs
      have hb := re.matcher.inBounds text.data i n hmatch
      have hlen : m.value.length = n := by
        rw [← hm]
        show ((text.data.drop i).take n).length = n
        simp only [List.length_take, List.length_drop]
        omega
      have hidx : m.index = i := by rw [← hm]
      have hl : text.length = text.data.length := rfl
      rw [hidx, hlen, hl]
      exact ⟨hle, hmatch, hb, hre.symm⟩

theorem exec_none (re : RegExp) (text : String) (re' : RegExp)
    (h : re.exec text = (none, re')) : re' = { re with lastIndex := 0 } := by
  unfold RegExp.exec at h
  split at h
  · simp only [Prod.mk.injEq, true_and] at h
    exact h.symm
  · split at h
    · simp only [Prod.mk.injEq, true_and] at h
      exact h.symm
    · exact absurd (congrArg Prod.fst h) (by simp)

theorem pushDecoration_some (mathes : Obj (List Decoration)) (pattern : String)
    (d : Decoration) (mathes' : Obj (List Decoration))
    (h : pushDecoration mathes pattern d = some mathes') :
    mathes' = Obj.set mathes pattern (rangesOf mathes pattern ++ [d]) := by
  unfold pushDecoration at h
  unfold rangesOf
  cases hg : Obj.get mathes pattern with
  | some ds =>
    rw [hg] at h
    simp only [Option.some.injEq] at h
    simp [← h]
  | none =>
    rw [hg] at h
    simp only [] at h
    split at h
    · cases h
    · simp only [Option.some.injEq] at h
      simp [← h]

theorem pushDecoration_eq_none (mathes : Obj (List Decoration)) (pattern : String)
    (d : Decoration) :
    pushDecoration mathes pattern d = none ↔
      Obj.get mathes pattern = none ∧ isInherited pattern = true := by
  unfold pushDecoration
  cases hg : Obj.get mathes pattern with
  | some ds => simp
  | none =>
    simp only []
    split
    · rename_i h
      simp [h]
    · rename_i h
      simp [h]

theorem recordMatch_some (s : State) (pattern : String) (m : Match) (sc sc' : Scan)
    (h : recordMatch s pattern m sc = some sc') :
    sc'.mathes = Obj.set sc.mathes pattern
      (rangesOf sc.mathes pattern ++ [⟨⟨m.index, m.index + m.value.length⟩⟩]) := by
  unfold recordMatch at h
  cases hp : pushDecoration sc.mathes pattern ⟨⟨m.index, m.index + m.value.length⟩⟩ with
  | none =>
    rw [hp] at h
    cases h
  | some mathes =>
    rw [hp] at h
    have hm := pushDecoration_some _ _ _ _ hp
    simp only [] at h
    split at h
    · simp only [Option.some.injEq] at h
      rw [← h]
      exact hm
    · simp only [Option.some.injEq] at h
      rw [← h]
      exact hm

theorem recordMatch_eq_none (s : State) (pattern : String) (m : Match) (sc : Scan) :
    recordMatch s pattern m sc = none ↔
      Obj.get sc.mathes pattern = none ∧ isInherited pattern = true := by
  rw [← pushDecoration_eq_none sc.mathes pattern ⟨⟨m.index, m.index + m.value.length⟩⟩]
  unfold recordMatch
  cases hp : pushDecoration sc.mathes pattern ⟨⟨m.index, m.index + m.value.length⟩⟩ with
  | none => simp
  | some mathes =>
    simp only []
    split <;> simp

theorem rangesOf_recordMatch (s : State) (pattern : String) (m : Match) (sc sc' : Scan)
    (h : recordMatch s pattern m sc = some sc') :
    rangesOf sc'.mathes pattern
      = rangesOf sc.mathes pattern ++ [⟨⟨m.index, m.index + m.value.length⟩⟩] := by
  rw [recordMatch_some s pattern m sc sc' h]
  simp [rangesOf, Obj.get_set_self]

theorem get_recordMatch_ne (s : State) (pattern : String) (m : Match) (sc sc' : Scan)
    (h : recordMatch s pattern m sc = some sc') (k : String) (hk : k ≠ pattern) :
    Obj.get sc'.mathes k = Obj.get sc.mathes k := by
  rw [recordMatch_some s pattern m sc sc' h, Obj.get_set_ne _ _ _ _ (Ne.symm hk)]

theorem get_recordMatch_self (s : State) (pattern : String) (m : Match) (sc sc' : Scan)
    (h : recordMatch s pattern m sc = some sc') :
    Obj.get sc'.mathes pattern ≠ none := by
  rw [recordMatch_some s pattern m sc sc' h, Obj.get_set_self]
  simp

theorem whileExec_other_keys (s : State) (text pattern : String) :
    ∀ (fuel : Nat) (re : RegExp) (sc : Scan) (k : String), k ≠ pattern →
      Obj.get (whileExec s text pattern fuel re sc).state.2.mathes k = Obj.get sc.mathes k := by
  intro fuel
  induction fuel with
  | zero =>
    intro re sc k _
    rfl
  | succ fuel ih =>
    intro re sc k hk
    simp only [whileExec]
    rcases hex : re.exec text with ⟨_ | m, re'⟩
    · rfl
    · simp only []
      cases hr : recordMatch s pattern m sc with
      | none => rfl
      | some sc' =>
        simp only []
        rw [ih re' sc' k hk, get_recordMatch_ne s pattern m sc sc' hr k hk]

theorem whileExec_blocked (s : State) (text pattern : String)
    (hi : isInherited pattern = true) :
    ∀ (fuel : Nat) (re : RegExp) (sc : Scan), Obj.get sc.mathes pattern = none →
      (whileExec s text pattern fuel re sc).state.2 = sc := by
  intro fuel
  cases fuel with
  | zero =>
    intro re sc _
    rfl
  | succ fuel =>
    intro re sc hg
    simp only [whileExec]
    rcases hex : re.exec text with ⟨_ | m, re'⟩
    · rfl
    · simp only [(recordMatch_eq_none s pattern m sc).mpr ⟨hg, hi⟩]
      rfl

theorem whileExec_mathes (s : State) (text pattern : String) :
    ∀ (fuel : Nat) (re : RegExp) (sc : Scan),
      (Obj.get sc.mathes pattern ≠ none ∨ isInherited pattern = false) →
        rangesOf (whileExec s text pattern fuel re sc).state.2.mathes pattern
          = rangesOf sc.mathes pattern ++ successiveMatches text fuel re := by
  intro fuel
  induction fuel with
  | zero =>
    intro re sc _
    simp [whileExec, successiveMatches, Outcome.state]
  | succ fuel ih =>
    intro re sc hfree
    simp only [whileExec, successiveMatches]
    rcases hex : re.exec text with ⟨_ | m, re'⟩
    · simp [Outcome.state]
    · simp only []
      cases hr : recordMatch s pattern m sc with
      | none =>
        obtain ⟨h1, h2⟩ := (recordMatch_eq_none s pattern m sc).mp hr
        rcases hfree with h | h
        · exact absurd h1 h
        · rw [h2] at h
          cases h
      | some sc' =>
        simp only []
        rw [ih re' sc' (Or.inl (get_recordMatch_self s pattern m sc sc' hr)),
          rangesOf_recordMatch s pattern m sc sc' hr]
        simp

theorem successiveMatches_spec (text : String) :
    ∀ (fuel : Nat) (re : RegExp),
      (successiveMatches text fuel re).Pairwise
          (fun a b => a.range.endOffset ≤ b.range.startOffset) ∧
        ∀ d ∈ successiveMatches text fuel re,
          re.lastIndex ≤ d.range.startOffset ∧ d.range.endOffset ≤ text.length ∧
            ∃ n, re.matcher.matchAt text.data d.range.startOffset = some n ∧
              d.range.endOffset = d.range.startOffset + n := by
  intro fuel
  induction fuel with
  | zero =>
    intro re
    simp [successiveMatches]
  | succ fuel ih =>
    intro re
    simp only [successiveMatches]
    rcases hex : re.exec text with ⟨_ | m, re'⟩
    · simp
    · obtain ⟨hle, hmatch, hin, hre⟩ := exec_some re text m re' hex
      obtain ⟨hp, hall⟩ := ih re'
      have hlast : re'.lastIndex = m.index + m.value.length := by rw [hre]
      have hmat : re'.matcher = re.matcher := by rw [hre]
      refine ⟨?_, ?_⟩
      · refine List.Pairwise.cons ?_ hp
        intro d hd
        have := (hall d hd).1
        simp only
        omega
      · intro d hd
        rcases List.mem_cons.mp hd with rfl | hd
        · exact ⟨hle, hin, m.value.length, hmatch, rfl⟩
        · obtain ⟨h1, h2, n, h3, h4⟩ := hall d hd
          refine ⟨by omega, h2, n, ?_, h4⟩
          rw [← hmat]
          exact h3

/-- C1: the ranges that the `while` loop of `updateDecorations` records for a
matcher are added in the order found, every one starts at or after the end of
every earlier one, and every one spans exactly a match of the pattern (its end
is its start plus the length of the text matched there); for the pattern `a+`
and the text `aaab` the scan returns with the single range from 0 to 3. -/
theorem scan_ranges_ordered :
    (∀ (s : State) (text pattern : String) (fuel : Nat) (re : RegExp) (sc : Scan),
      ∃ found : List Decoration,
        rangesOf (whileExec s text pattern fuel re sc).state.2.mathes pattern
            = rangesOf sc.mathes pattern ++ found ∧
          found.Pairwise (fun a b => a.range.endOffset ≤ b.range.startOffset) ∧
          ∀ d ∈ found,
            re.lastIndex ≤ d.range.startOffset ∧ d.range.endOffset ≤ text.length ∧
              ∃ n, re.matcher.matchAt text.data d.range.startOffset = some n ∧
                d.range.endOffset = d.range.startOffset + n) ∧
    (scan (activated miniHost (Settings.plain true true "a+" []) (some "aaab")).state
        "aaab" 2).isDone = true ∧
    (scan (activated miniHost (Settings.plain true true "a+" []) (some "aaab")).state
        "aaab" 2).state.2.mathes = [("a+", [⟨⟨0, 3⟩⟩])] := by
  refine ⟨?_, by decide, by decide⟩
  intro s text pattern fuel re sc
  by_cases hfree : Obj.get sc.mathes pattern ≠ none ∨ isInherited pattern = false
  · exact ⟨successiveMatches text fuel re, whileExec_mathes s text pattern fuel re sc hfree,
      successiveMatches_spec text fuel re⟩
  · have hg : Obj.get sc.mathes pattern = none := by
      by_contra h
      exact hfree (Or.inl h)
    have hi : isInherited pattern = true := by
      cases h : isInherited pattern with
      | true => rfl
      | false => exact absurd (Or.inr h) hfree
    refine ⟨[], ?_, List.Pairwise.nil, ?_⟩
    · rw [whileExec_blocked s text pattern hi fuel re sc hg]
      simp
    · intro d hd
      cases hd

/-! ## A pattern that matches the empty string -/

theorem starRegExp_exec : starRegExp.exec "bbb" = (some ⟨0, ""⟩, starRegExp) := by
  rfl

theorem whileExec_star_running (s : State) :
    ∀ (fuel : Nat) (sc : Scan), ∃ r, whileExec s "bbb" "a*" fuel starRegExp sc = Outcome.running r := by
  intro fuel
  induction fuel with
  | zero =>
    intro sc
    exact ⟨_, rfl⟩
  | succ fuel ih =>
    intro sc
    simp only [whileExec, starRegExp_exec]
    cases hr : recordMatch s "a*" ⟨0, ""⟩ sc with
    | none =>
      have hi := ((recordMatch_eq_none s "a*" ⟨0, ""⟩ sc).mp hr).2
      exact absurd hi (by decide)
    | some sc' => exact ih sc'

theorem successiveMatches_star :
    ∀ fuel : Nat, successiveMatches "bbb" fuel starRegExp = List.replicate fuel ⟨⟨0, 0⟩⟩ := by
  intro fuel
  induction fuel with
  | zero => rfl
  | succ fuel ih =>
    simp only [successiveMatches, starRegExp_exec, ih, List.replicate_succ]
    rfl

theorem star_running (host : Host) (s : State) (hed : s.activeEditor = some "bbb")
    (hpat : s.patterns = [PatternEntry.compiled ⟨"a*", starRegExp⟩]) (fuel : Nat) :
    (∃ st, updateDecorations host fuel s = Outcome.running st) ∧
      rangesOf (scan s "bbb" fuel).state.2.mathes "a*" = List.replicate fuel ⟨⟨0, 0⟩⟩ := by
  obtain ⟨r, hr⟩ := whileExec_star_running s fuel ⟨[], s.decorationTypes, s.created⟩
  have hm := whileExec_mathes s "bbb" "a*" fuel starRegExp ⟨[], s.decorationTypes, s.created⟩
    (Or.inr (by decide))
  have hscan : scan s "bbb" fuel = Outcome.running (rejoin ⟨"a*", starRegExp⟩ [] r) := by
    simp only [scan, hpat, forPatterns, hr]
  constructor
  · unfold updateDecorations
    rw [hed]
    simp only [hscan]
    exact ⟨_, rfl⟩
  · rw [hscan]
    rw [hr] at hm
    simp only [Outcome.state, rejoin] at hm ⊢
    rw [hm, successiveMatches_star]
    rfl

/-- C2, evaluated on the code: with `keywordsPattern` `a*` (which compiles)
and the document `bbb`, `exec` reports the empty match at offset 0 and leaves
`lastIndex` at 0, so after any number of iterations the loop of
`updateDecorations` is still running, and it has recorded one empty range per
iteration. -/
theorem emptyMatch_scan_never_returns :
    (activated miniHost (Settings.plain true true "a*" []) (some "bbb")).isDone = true ∧
    ∀ fuel : Nat,
      (∃ st, updateDecorations miniHost fuel
          (activated miniHost (Settings.plain true true "a*" []) (some "bbb")).state
            = Outcome.running st) ∧
      rangesOf (scan (activated miniHost (Settings.plain true true "a*" []) (some "bbb")).state
          "bbb" fuel).state.2.mathes "a*" = List.replicate fuel ⟨⟨0, 0⟩⟩ :=
  ⟨by decide, fun fuel => star_running miniHost _ rfl rfl fuel⟩

/-! ## Evaluations -/

/-- C4, refuted as stated: in single-pattern mode with the pattern `a+` and
the document `aaab` the matched text is `aaa`, but no range is stored under
the key `aaa`; the range is stored under the pattern text `a+`. -/
theorem matchedText_is_not_the_key :
    firstMatch (activated miniHost (Settings.plain true true "a+" []) (some "aaab")).state "aaab"
        = some ⟨0, "aaa"⟩ ∧
    (scan (activated miniHost (Settings.plain true true "a+" []) (some "aaab")).state
        "aaab" 2).isDone = true ∧
    Obj.get (scan (activated miniHost (Settings.plain true true "a+" []) (some "aaab")).state
        "aaab" 2).state.2.mathes "aaa" = none ∧
    Obj.get (scan (activated miniHost (Settings.plain true true "a+" []) (some "aaab")).state
        "aaab" 2).state.2.mathes "a+" = some [⟨⟨0, 3⟩⟩] := by
  decide

/-- C6, evaluated on the code: in single-pattern mode, not case sensitive,
with the pattern `todo` (which compiles) and the document `a todo`, the scan
stores the decoration entry under `todo`, the `forEach` looks up `TODO`, finds
nothing, and `updateDecorations` raises a `TypeError` before any call of
`setDecorations`. -/
theorem singlePattern_lookup_throws :
    (activated miniHost (Settings.plain true false "todo" []) (some "a todo")).isDone = true ∧
    (updateDecorations miniHost 2
        (activated miniHost (Settings.plain true false "todo" []) (some "a todo")).state).error?
      = some JSError.typeError ∧
    Obj.keys (updateDecorations miniHost 2
        (activated miniHost (Settings.plain true false "todo" []) (some "a todo")).state).state.decorationTypes
      = ["todo"] ∧
    (updateDecorations miniHost 2
        (activated miniHost (Settings.plain true false "todo" []) (some "a todo")).state).state.calls
      = [] := by
  decide

/-- C7, refuted as stated: after a working configuration with the keyword
`TODO`, `init` with the malformed `keywordsPattern` `(` raises a `SyntaxError`
and leaves `keywordsPattern`, the case flag, `decorationTypes` and `patterns`
changed; the configuration change handler reaches `init` and fails the same
way. -/
theorem failed_init_changes_state :
    (activated miniHost (Settings.plain true true "" ["TODO"]) none).isDone = true ∧
    (init miniHost (Settings.plain true false "(" [])
        (activated miniHost (Settings.plain true true "" ["TODO"]) none).state).error?
      = some JSError.syntaxError ∧
    (init miniHost (Settings.plain true false "(" [])
        (activated miniHost (Settings.plain true true "" ["TODO"]) none).state).state.keywordsPattern
      ≠ (activated miniHost (Settings.plain true true "" ["TODO"]) none).state.keywordsPattern ∧
    (init miniHost (Settings.plain true false "(" [])
        (activated miniHost (Settings.plain true true "" ["TODO"]) none).state).state.isCaseSensitive
      ≠ (activated miniHost (Settings.plain true true "" ["TODO"]) none).state.isCaseSensitive ∧
    (init miniHost (Settings.plain true false "(" [])
        (activated miniHost (Settings.plain true true "" ["TODO"]) none).state).state.decorationTypes
      ≠ (activated miniHost (Settings.plain true true "" ["TODO"]) none).state.decorationTypes ∧
    (init miniHost (Settings.plain true false "(" [])
        (activated miniHost (Settings.plain true true "" ["TODO"]) none).state).state.patterns.map
        PatternEntry.source
      ≠ (activated miniHost (Settings.plain true true "" ["TODO"]) none).state.patterns.map
        PatternEntry.source ∧
    (onDidChangeConfiguration miniHost (Settings.plain true false "(" [])
        (activated miniHost (Settings.plain true true "" ["TODO"]) none).state).error?
      = some JSError.syntaxError := by
  decide

theorem mergedStyleOf_rulerColor (a : Option Style) :
    (Style.prop (mergedStyleOf a) "overviewRulerColor").truthy = true ∨
      Style.prop (mergedStyleOf a) "overviewRulerColor"
        = Style.prop (mergedStyleOf a) "backgroundColor" := by
  unfold mergedStyleOf
  simp only []
  split
  · right
    have hne : ("overviewRulerColor" : String) ≠ "backgroundColor" := by decide
    simp only [Style.prop, Obj.get_set_self, Obj.get_set_ne _ _ _ _ hne, Option.getD_some]
  · rename_i h
    left
    simpa using h

/-- C8, evaluated on the code: the style `init` merges for a class either has
a truthy `overviewRulerColor` of its own or gets its `backgroundColor` there,
and with the user default style of background `#ff0000` the class `TODO` is
created with ruler colour `#ff0000`; but in single-pattern mode with the same
default style the shared style reaches the editor with background `#ff0000` and
no `overviewRulerColor`. -/
theorem sharedStyle_has_no_rulerColor :
    (∀ a : Option Style,
      (Style.prop (mergedStyleOf a) "overviewRulerColor").truthy = true ∨
        Style.prop (mergedStyleOf a) "overviewRulerColor"
          = Style.prop (mergedStyleOf a) "backgroundColor") ∧
    colours (activated miniHost ⟨true, true, "", redBackground, [⟨"TODO", []⟩]⟩
        (some "TODO")).state.created
      = [(Value.str "#ff0000", Value.str "#ff0000")] ∧
    (updateDecorations miniHost 2
        (activated miniHost ⟨true, true, "TODO", redBackground, []⟩ (some "TODO")).state).isDone
      = true ∧
    colours (updateDecorations miniHost 2
        (activated miniHost ⟨true, true, "TODO", redBackground, []⟩ (some "TODO")).state).state.created
      = [(Value.str "#ff0000", Value.undefined)] :=
  ⟨mergedStyleOf_rulerColor, by decide, by decide, by decide⟩

/-- C10, evaluated on the code: in multi-keyword mode with the keywords `TODO`
and `FIXME`, choosing `ALL` reads the variable `searchPattern`, which nothing
has declared, and the command raises a `ReferenceError` before any search;
choosing `TODO` searches with one copy of the `TODO` matcher per pattern; and
choosing `ALL` after that searches with those same `TODO` matchers, not with
the matchers of `patterns`. -/
theorem listAnnotations_all_fails :
    (activated miniHost (Settings.plain true false "" ["TODO", "FIXME"]) none).state.patterns.map
        PatternEntry.source = ["TODO", "FIXME"] ∧
    (listAnnotations miniHost (some "ALL")
        (activated miniHost (Settings.plain true false "" ["TODO", "FIXME"]) none).state).error?
      = some JSError.referenceError ∧
    (listAnnotations miniHost (some "ALL")
        (activated miniHost (Settings.plain true false "" ["TODO", "FIXME"]) none).state).state.searches.map
        SearchArg.sources = [] ∧
    (listAnnotations miniHost (some "TODO")
        (activated miniHost (Settings.plain true false "" ["TODO", "FIXME"]) none).state).state.searches.map
        SearchArg.sources = [[("TODO", true), ("TODO", true)]] ∧
    (listAnnotations miniHost (some "ALL")
        (listAnnotations miniHost (some "TODO")
          (activated miniHost (Settings.plain true false "" ["TODO", "FIXME"])
            none).state).state).state.searches.map SearchArg.sources
      = [[("TODO", true), ("TODO", true)], [("TODO", true), ("TODO", true)]] := by
  decide

/-! ## The disabled switch -/

theorem forEachKey_disabled (host : Host) (s : State) (mathes : Obj (List Decoration))
    (decorationTypes : Obj DecorationType) (h : s.settings.isEnable = false) :
    ∀ (keys : List String) (calls : List (Option Nat × RangeOption)),
      ∃ new, (forEachKey host s mathes decorationTypes keys calls).state = calls ++ new ∧
        (∀ c ∈ new, c.2 = RangeOption.ranges []) ∧
        ((forEachKey host s mathes decorationTypes keys calls).isDone = true →
          new.length = keys.length) := by
  intro keys
  induction keys with
  | nil =>
    intro calls
    exact ⟨[], by simp [forEachKey, Outcome.state], by simp, by simp⟩
  | cons v vs ih =>
    intro calls
    simp only [forEachKey, h]
    cases hg : Obj.get decorationTypes (normalizeKey host s.isCaseSensitive v) with
    | none =>
      simp only [Bool.false_eq_true, if_false]
      by_cases hi : isInherited (normalizeKey host s.isCaseSensitive v) = true
      · simp only [hi, if_true]
        obtain ⟨new, h1, h2, h3⟩ := ih (calls ++ [(none, RangeOption.ranges [])])
        refine ⟨(none, RangeOption.ranges []) :: new, ?_, ?_, ?_⟩
        · simpa using h1
        · intro c hc
          rcases List.mem_cons.mp hc with rfl | hc
          · rfl
          · exact h2 c hc
        · intro hd
          simpa using h3 hd
      · simp only [hi, if_false]
        exact ⟨[], by simp [Outcome.state], by simp, by simp [Outcome.isDone]⟩
    | some dt =>
      simp only [Bool.false_eq_true, if_false]
      obtain ⟨new, h1, h2, h3⟩ := ih (calls ++ [(some dt.target, RangeOption.ranges [])])
      refine ⟨(some dt.target, RangeOption.ranges []) :: new, ?_, ?_, ?_⟩
      · simpa using h1
      · intro c hc
        rcases List.mem_cons.mp hc with rfl | hc
        · rfl
        · exact h2 c hc
      · intro hd
        simpa using h3 hd

/-- C5: when `isEnable` is false, every call of `setDecorations` that
`updateDecorations` makes carries the empty range list, whatever the scan
found; and when the run returns with an editor present it has made one such
call for every key of `decorationTypes`. -/
theorem disabled_hands_empty_ranges (host : Host) (fuel : Nat) (s : State)
    (h : s.settings.isEnable = false) :
    ∃ new, (updateDecorations host fuel s).state.calls = s.calls ++ new ∧
      (∀ c ∈ new, c.2 = RangeOption.ranges []) ∧
      (s.activeEditor ≠ none → (updateDecorations host fuel s).isDone = true →
        new.length = (Obj.keys (updateDecorations host fuel s).state.decorationTypes).length) := by
  unfold updateDecorations
  cases hed : s.activeEditor with
  | none => exact ⟨[], by simp [Outcome.state], by simp, by simp⟩
  | some text =>
    simp only []
    cases hsc : scan s text fuel with
    | done r =>
      obtain ⟨new, h1, h2, h3⟩ := forEachKey_disabled host s r.2.mathes r.2.decorationTypes h
        (Obj.keys r.2.decorationTypes) s.calls
      simp only []
      cases hf : forEachKey host s r.2.mathes r.2.decorationTypes
          (Obj.keys r.2.decorationTypes) s.calls with
      | done calls =>
        rw [hf] at h1 h3
        refine ⟨new, ?_, h2, ?_⟩
        · simpa [Outcome.state, afterScan] using h1
        · intro _ _
          simpa [Outcome.state, afterScan, Outcome.isDone] using h3
      | throws e calls =>
        rw [hf] at h1
        refine ⟨new, ?_, h2, ?_⟩
        · simpa [Outcome.state, afterScan] using h1
        · simp [Outcome.isDone]
      | running calls =>
        rw [hf] at h1
        refine ⟨new, ?_, h2, ?_⟩
        · simpa [Outcome.state, afterScan] using h1
        · simp [Outcome.isDone]
    | throws e r => exact ⟨[], by simp [Outcome.state, afterScan], by simp, by simp [Outcome.isDone]⟩
    | running r => exact ⟨[], by simp [Outcome.state, afterScan], by simp, by simp [Outcome.isDone]⟩

/-- Witness of C5: the keywords `TODO` and `FIXME`, not case sensitive,
highlighting disabled, document `a todo`: the scan finds a match, and both
classes receive the empty range list. -/
theorem disabled_hands_empty_ranges_witness :
    (activated miniHost (Settings.plain false false "" ["TODO", "FIXME"])
        (some "a todo")).state.settings.isEnable = false ∧
    (∃ new, (updateDecorations miniHost 2
        (activated miniHost (Settings.plain false false "" ["TODO", "FIXME"])
          (some "a todo")).state).state.calls
          = (activated miniHost (Settings.plain false false "" ["TODO", "FIXME"])
              (some "a todo")).state.calls ++ new ∧
      (∀ c ∈ new, c.2 = RangeOption.ranges []) ∧
      ((activated miniHost (Settings.plain false false "" ["TODO", "FIXME"])
          (some "a todo")).state.activeEditor ≠ none →
        (updateDecorations miniHost 2
          (activated miniHost (Settings.plain false false "" ["TODO", "FIXME"])
            (some "a todo")).state).isDone = true →
        new.length = (Obj.keys (updateDecorations miniHost 2
          (activated miniHost (Settings.plain false false "" ["TODO", "FIXME"])
            (some "a todo")).state).state.decorationTypes).length)) ∧
    (scan (activated miniHost (Settings.plain false false "" ["TODO", "FIXME"])
        (some "a todo")).state "a todo" 2).state.2.mathes = [("TODO", [⟨⟨2, 6⟩⟩])] ∧
    (updateDecorations miniHost 2
        (activated miniHost (Settings.plain false false "" ["TODO", "FIXME"])
          (some "a todo")).state).state.calls
      = [(some 0, RangeOption.ranges []), (some 1, RangeOption.ranges [])] :=
  ⟨rfl, disabled_hands_empty_ranges miniHost 2 _ rfl, by decide, by decide⟩

/-! ## The scheduler -/

theorem trigger_pending (s : Scheduler)
    (hp : s.pending = [] ∨ ∃ t, s.pending = [t] ∧ s.timeout = some t)
    (ht : ∀ t, s.timeout = some t → 0 < t) :
    (triggerUpdateDecorations s).pending = [s.nextHandle] ∧
      (triggerUpdateDecorations s).timeout = some s.nextHandle ∧
      (triggerUpdateDecorations s).nextHandle = s.nextHandle + 1 ∧
      (triggerUpdateDecorations s).runs = s.runs := by
  unfold triggerUpdateDecorations
  refine ⟨?_, rfl, rfl, rfl⟩
  simp only []
  cases hto : s.timeout with
  | none =>
    rcases hp with hp | ⟨t, _, hp⟩
    · simp [hp]
    · rw [hto] at hp
      cases hp
  | some t =>
    have ht0 : t ≠ 0 := Nat.pos_iff_ne_zero.mp (ht t hto)
    rcases hp with hp | ⟨t', hp, hp'⟩
    · simp [hp, ht0]
    · rw [hto] at hp'
      cases hp'
      simp [hp, ht0]

theorem sound_step (s : Scheduler) (h : s.Sound) (e : Event) : (s.step e).Sound := by
  obtain ⟨hp, ht, hn⟩ := h
  cases e with
  | trigger =>
    obtain ⟨h1, h2, h3, _⟩ := trigger_pending s hp ht
    refine ⟨Or.inr ⟨s.nextHandle, h1, h2⟩, ?_, ?_⟩
    · intro t htt
      simp only [Scheduler.step] at htt
      rw [h2] at htt
      cases htt
      exact hn
    · simp only [Scheduler.step]
      omega
  | fire =>
    simp only [Scheduler.step, fire]
    rcases hp with hp | ⟨t, hp, _⟩
    · rw [hp]
      exact ⟨Or.inl hp, ht, hn⟩
    · rw [hp]
      exact ⟨Or.inl rfl, ht, hn⟩

theorem sound_run (events : List Event) :
    ∀ s : Scheduler, s.Sound → (s.run events).Sound := by
  induction events with
  | nil =>
    intro s h
    exact h
  | cons e es ih =>
    intro s h
    exact ih (s.step e) (sound_step s h e)

theorem sound_start : Scheduler.start.Sound := by
  refine ⟨Or.inl rfl, ?_, ?_⟩
  · intro t h
    cases h
  · decide

theorem burst_pending (s : Scheduler) (h : s.Sound) :
    ∀ n : Nat, 1 ≤ n →
      (triggerUpdateDecorations^[n] s).Sound ∧
        (triggerUpdateDecorations^[n] s).pending.length = 1 ∧
        (triggerUpdateDecorations^[n] s).runs = s.runs := by
  intro n
  induction n generalizing s with
  | zero =>
    intro hn
    omega
  | succ n ih =>
    intro _
    have hs : (triggerUpdateDecorations s).Sound := sound_step s h Event.trigger
    obtain ⟨h1, _, _, h4⟩ := trigger_pending s h.1 h.2.1
    rw [Function.iterate_succ_apply]
    rcases Nat.eq_zero_or_pos n with rfl | hpos
    · refine ⟨hs, ?_, h4⟩
      simp [h1]
    · obtain ⟨i1, i2, i3⟩ := ih (triggerUpdateDecorations s) hs hpos
      exact ⟨i1, i2, by rw [i3, h4]⟩

/-- C9: from any state the scheduler can reach, `n ≥ 1` consecutive calls of
`triggerUpdateDecorations` leave exactly one timer waiting; when it fires,
`updateDecorations` has run exactly once more than before the burst and no
timer waits any longer; and in every reachable state at most one timer
waits. -/
theorem burst_runs_once (events : List Event) (n : Nat) (hn : 1 ≤ n) :
    (Scheduler.start.run events).pending.length ≤ 1 ∧
    (triggerUpdateDecorations^[n] (Scheduler.start.run events)).pending.length = 1 ∧
    (triggerUpdateDecorations^[n] (Scheduler.start.run events)).runs
      = (Scheduler.start.run events).runs ∧
    (fire (triggerUpdateDecorations^[n] (Scheduler.start.run events))).runs
      = (Scheduler.start.run events).runs + 1 ∧
    (fire (triggerUpdateDecorations^[n] (Scheduler.start.run events))).pending = [] := by
  have hs := sound_run events Scheduler.start sound_start
  obtain ⟨_, b2, b3⟩ := burst_pending _ hs n hn
  refine ⟨?_, b2, b3, ?_, ?_⟩
  · rcases hs.1 with hp | ⟨t, hp, _⟩ <;> simp [hp]
  · unfold fire
    match hb : (triggerUpdateDecorations^[n] (Scheduler.start.run events)).pending with
    | [] => simp [hb] at b2
    | [t] => simp [b3]
    | _ :: _ :: _ => simp [hb] at b2
  · unfold fire
    match hb : (triggerUpdateDecorations^[n] (Scheduler.start.run events)).pending with
    | [] => simp [hb] at b2
    | [t] => simp
    | _ :: _ :: _ => simp [hb] at b2

/-- Witness of C9: three requests in a row at the start; one timer waits, and
`updateDecorations` runs once. -/
theorem burst_runs_once_witness :
    1 ≤ 3 ∧
    ((Scheduler.start.run []).pending.length ≤ 1 ∧
    (triggerUpdateDecorations^[3] (Scheduler.start.run [])).pending.length = 1 ∧
    (triggerUpdateDecorations^[3] (Scheduler.start.run [])).runs
      = (Scheduler.start.run []).runs ∧
    (fire (triggerUpdateDecorations^[3] (Scheduler.start.run []))).runs
      = (Scheduler.start.run []).runs + 1 ∧
    (fire (triggerUpdateDecorations^[3] (Scheduler.start.run []))).pending = []) ∧
    triggerUpdateDecorations^[3] Scheduler.start = ⟨some 3, [3], 4, 0⟩ :=
  ⟨by decide, burst_runs_once [] 3 (by decide), by decide⟩

/-! ## `init` -/

theorem compileAll_some (host : Host) (flags : Flags) :
    ∀ (ps : List String) (es : List PatternEntry), compileAll host flags ps = some es →
      es = ps.map (fun p => PatternEntry.compiled
        ⟨p, ⟨p, flags, (host.newRegExp p flags).getD (Regex.compile false Regex.empty), 0⟩⟩) ∧
      ∀ p ∈ ps, host.newRegExp p flags ≠ none := by
  intro ps
  induction ps with
  | nil =>
    intro es h
    simp only [compileAll, Option.some.injEq] at h
    simp [← h]
  | cons p ps ih =>
    intro es h
    simp only [compileAll] at h
    cases hm : host.newRegExp p flags with
    | none => simp [hm] at h
    | some m =>
      simp only [hm] at h
      cases hr : compileAll host flags ps with
      | none => simp [hr] at h
      | some rest =>
        simp only [hr, Option.map_some', Option.some.injEq] at h
        obtain ⟨h1, h2⟩ := ih rest hr
        refine ⟨?_, ?_⟩
        · rw [← h, h1]
          simp [hm]
        · intro q hq
          rcases List.mem_cons.mp hq with rfl | hq
          · simp [hm]
          · exact h2 q hq

theorem compileAll_nil_ne_none (host : Host) (flags : Flags) :
    compileAll host flags [] ≠ none := by
  simp [compileAll]

theorem initAssign_fields (host : Host) (settings : Settings) (s : State) :
    (initAssign host settings s).keywordsPattern = settings.keywordsPattern ∧
      (initAssign host settings s).isCaseSensitive = settings.isCaseSensitive ∧
      (initAssign host settings s).settings = s.settings ∧
      (initAssign host settings s).activeEditor = s.activeEditor ∧
      (initAssign host settings s).calls = s.calls ∧
      ∀ e ∈ (initAssign host settings s).patterns, e.isRaw = true := by
  unfold initAssign
  simp only []
  split
  · refine ⟨rfl, rfl, rfl, rfl, rfl, ?_⟩
    intro e he
    simp only [List.mem_singleton] at he
    rw [he]
    rfl
  · refine ⟨rfl, rfl, rfl, rfl, rfl, ?_⟩
    intro e he
    simp only [List.mem_map] at he
    obtain ⟨k, _, rfl⟩ := he
    rfl

theorem init_cases (host : Host) (settings : Settings) (s : State) :
    (∃ ps, compileAll host ⟨!settings.isCaseSensitive, true⟩
          ((initAssign host settings s).patterns.map PatternEntry.source) = some ps ∧
        init host settings s = Outcome.done { initAssign host settings s with patterns := ps }) ∨
      (compileAll host ⟨!settings.isCaseSensitive, true⟩
          ((initAssign host settings s).patterns.map PatternEntry.source) = none ∧
        init host settings s = Outcome.throws JSError.syntaxError (initAssign host settings s)) := by
  unfold init
  simp only [(initAssign_fields host settings s).2.1]
  cases hc : compileAll host ⟨!settings.isCaseSensitive, true⟩
      ((initAssign host settings s).patterns.map PatternEntry.source) with
  | none => exact Or.inr ⟨rfl, rfl⟩
  | some ps => exact Or.inl ⟨ps, rfl, rfl⟩

theorem updateDecorations_raw (host : Host) (fuel : Nat) (s : State) (text p : String)
    (rest : List PatternEntry) (hed : s.activeEditor = some text)
    (hp : s.patterns = PatternEntry.raw p :: rest) :
    (updateDecorations host fuel s).error? = some JSError.typeError ∧
      (updateDecorations host fuel s).state.calls = s.calls := by
  unfold updateDecorations
  rw [hed]
  simp only [scan, hp, forPatterns]
  exact ⟨rfl, rfl⟩

theorem initAssign_single (host : Host) (settings : Settings) (s : State)
    (hmode : trimTruthy settings.keywordsPattern = true) :
    (initAssign host settings s).patterns = [PatternEntry.raw settings.keywordsPattern] ∧
      (initAssign host settings s).decorationTypes = [] := by
  unfold initAssign
  simp [hmode]

theorem initAssign_multi (host : Host) (settings : Settings) (s : State)
    (hmode : trimTruthy settings.keywordsPattern = false) :
    (initAssign host settings s).patterns
        = (Obj.keys (getAssembledData host settings.keywords settings.defaultStyle
            settings.isCaseSensitive)).map PatternEntry.raw ∧
      (initAssign host settings s).decorationTypes
        = ((Obj.keys (getAssembledData host settings.keywords settings.defaultStyle
            settings.isCaseSensitive)).foldl
            (addDecorationType host settings.isCaseSensitive
              (getAssembledData host settings.keywords settings.defaultStyle
                settings.isCaseSensitive)) ([], s.created)).1 := by
  unfold initAssign
  simp [hmode]

theorem map_source_raw (ks : List String) :
    (ks.map PatternEntry.raw).map PatternEntry.source = ks := by
  induction ks with
  | nil => rfl
  | cons k ks ih =>
    simp only [List.map_cons, ih]
    rfl

/-- C7, amended: when the compilation of a pattern fails, `init` raises a
`SyntaxError` after its assignments: `keywordsPattern` and the case flag hold
the values of the new configuration; `decorationTypes` holds exactly what
`init` builds for the new configuration (nothing in single-pattern mode, the
entries made for the class keys of the new `assembledData` in multi-keyword
mode); `patterns` holds the pattern texts of the new configuration (the
`keywordsPattern` text, or the class keys), is not empty, and not one of them
is compiled; a later `updateDecorations` with an editor present raises a
`TypeError` at the first pattern and calls `setDecorations` not once. -/
theorem failed_init_leaves_texts (host : Host) (settings : Settings) (s : State)
    (h : (init host settings s).isDone = false) :
    (init host settings s).error? = some JSError.syntaxError ∧
    (init host settings s).state.keywordsPattern = settings.keywordsPattern ∧
    (init host settings s).state.isCaseSensitive = settings.isCaseSensitive ∧
    (init host settings s).state.decorationTypes
      = (if trimTruthy settings.keywordsPattern then []
          else ((Obj.keys (getAssembledData host settings.keywords settings.defaultStyle settings.isCaseSensitive)).foldl
            (addDecorationType host settings.isCaseSensitive (getAssembledData host settings.keywords settings.defaultStyle settings.isCaseSensitive))
            ([], s.created)).1) ∧
    (init host settings s).state.patterns
      = (if trimTruthy settings.keywordsPattern then [settings.keywordsPattern]
          else Obj.keys (getAssembledData host settings.keywords settings.defaultStyle settings.isCaseSensitive)).map PatternEntry.raw ∧
    (init host settings s).state.patterns ≠ [] ∧
    (∀ e ∈ (init host settings s).state.patterns, e.isRaw = true) ∧
    ∀ fuel : Nat, (init host settings s).state.activeEditor ≠ none →
      (updateDecorations host fuel (init host settings s).state).error?
          = some JSError.typeError ∧
        (updateDecorations host fuel (init host settings s).state).state.calls
          = (init host settings s).state.calls := by
  obtain ⟨f1, f2, _, _, _, f6⟩ := initAssign_fields host settings s
  rcases init_cases host settings s with ⟨ps, _, hi⟩ | ⟨hc, hi⟩
  · rw [hi] at h
    simp [Outcome.isDone] at h
  · rw [hi]
    simp only [Outcome.state, Outcome.error?]
    have hne : (initAssign host settings s).patterns ≠ [] := by
      intro he
      rw [he] at hc
      exact compileAll_nil_ne_none host _ hc
    have hdt : (initAssign host settings s).decorationTypes
        = (if trimTruthy settings.keywordsPattern then []
            else ((Obj.keys (getAssembledData host settings.keywords settings.defaultStyle
                settings.isCaseSensitive)).foldl
              (addDecorationType host settings.isCaseSensitive
                (getAssembledData host settings.keywords settings.defaultStyle
                  settings.isCaseSensitive))
              ([], s.created)).1) := by
      by_cases hmode : trimTruthy settings.keywordsPattern = true
      · rw [(initAssign_single host settings s hmode).2]
        simp [hmode]
      · have hmode' : trimTruthy settings.keywordsPattern = false := by simpa using hmode
        rw [(initAssign_multi host settings s hmode').2]
        simp [hmode']
    have hpt : (initAssign host settings s).patterns
        = (if trimTruthy settings.keywordsPattern then [settings.keywordsPattern]
            else Obj.keys (getAssembledData host settings.keywords settings.defaultStyle
              settings.isCaseSensitive)).map PatternEntry.raw := by
      by_cases hmode : trimTruthy settings.keywordsPattern = true
      · rw [(initAssign_single host settings s hmode).1]
        simp [hmode]
      · have hmode' : trimTruthy settings.keywordsPattern = false := by simpa using hmode
        rw [(initAssign_multi host settings s hmode').1]
        simp [hmode']
    refine ⟨trivial, f1, f2, hdt, hpt, hne, f6, ?_⟩
    intro fuel hed
    cases hpat : (initAssign host settings s).patterns with
    | nil => exact absurd hpat hne
    | cons e rest =>
      cases e with
      | raw p =>
        cases hed' : (initAssign host settings s).activeEditor with
        | none => exact absurd hed' hed
        | some text => exact updateDecorations_raw host fuel _ text p rest hed' hpat
      | compiled p =>
        have := f6 (PatternEntry.compiled p) (by rw [hpat]; exact List.mem_cons_self _ _)
        simp [PatternEntry.isRaw] at this

/-- Witness of C7 amended: the working configuration with the keyword `TODO`,
then `init` with the malformed pattern `(`: the entry of the class `TODO` is
gone from `decorationTypes` and `patterns` holds the bare text `(`. -/
theorem failed_init_leaves_texts_witness :
    (init miniHost (Settings.plain true false "(" [])
        (activated miniHost (Settings.plain true true "" ["TODO"]) (some "TODO")).state).isDone
      = false ∧
    ((init miniHost (Settings.plain true false "(" []) (activated miniHost (Settings.plain true true "" ["TODO"]) (some "TODO")).state).error? = some JSError.syntaxError ∧
    (init miniHost (Settings.plain true false "(" []) (activated miniHost (Settings.plain true true "" ["TODO"]) (some "TODO")).state).state.keywordsPattern = (Settings.plain true false "(" []).keywordsPattern ∧
    (init miniHost (Settings.plain true false "(" []) (activated miniHost (Settings.plain true true "" ["TODO"]) (some "TODO")).state).state.isCaseSensitive = (Settings.plain true false "(" []).isCaseSensitive ∧
    (init miniHost (Settings.plain true false "(" []) (activated miniHost (Settings.plain true true "" ["TODO"]) (some "TODO")).state).state.decorationTypes
      = (if trimTruthy (Settings.plain true false "(" []).keywordsPattern then []
          else ((Obj.keys (getAssembledData miniHost (Settings.plain true false "(" []).keywords (Settings.plain true false "(" []).defaultStyle (Settings.plain true false "(" []).isCaseSensitive)).foldl
            (addDecorationType miniHost (Settings.plain true false "(" []).isCaseSensitive (getAssembledData miniHost (Settings.plain true false "(" []).keywords (Settings.plain true false "(" []).defaultStyle (Settings.plain true false "(" []).isCaseSensitive))
            ([], (activated miniHost (Settings.plain true true "" ["TODO"]) (some "TODO")).state.created)).1) ∧
    (init miniHost (Settings.plain true false "(" []) (activated miniHost (Settings.plain true true "" ["TODO"]) (some "TODO")).state).state.patterns
      = (if trimTruthy (Settings.plain true false "(" []).keywordsPattern then [(Settings.plain true false "(" []).keywordsPattern]
          else Obj.keys (getAssembledData miniHost (Settings.plain true false "(" []).keywords (Settings.plain true false "(" []).defaultStyle (Settings.plain true false "(" []).isCaseSensitive)).map PatternEntry.raw ∧
    (init miniHost (Settings.plain true false "(" []) (activated miniHost (Settings.plain true true "" ["TODO"]) (some "TODO")).state).state.patterns ≠ [] ∧
    (∀ e ∈ (init miniHost (Settings.plain true false "(" []) (activated miniHost (Settings.plain true true "" ["TODO"]) (some "TODO")).state).state.patterns, e.isRaw = true) ∧
    ∀ fuel : Nat, (init miniHost (Settings.plain true false "(" []) (activated miniHost (Settings.plain true true "" ["TODO"]) (some "TODO")).state).state.activeEditor ≠ none →
      (updateDecorations miniHost fuel (init miniHost (Settings.plain true false "(" []) (activated miniHost (Settings.plain true true "" ["TODO"]) (some "TODO")).state).state).error?
          = some JSError.typeError ∧
        (updateDecorations miniHost fuel (init miniHost (Settings.plain true false "(" []) (activated miniHost (Settings.plain true true "" ["TODO"]) (some "TODO")).state).state).state.calls
          = (init miniHost (Settings.plain true false "(" []) (activated miniHost (Settings.plain true true "" ["TODO"]) (some "TODO")).state).state.calls) ∧
    Obj.keys (activated miniHost (Settings.plain true true "" ["TODO"]) (some "TODO")).state.decorationTypes
      = ["TODO"] ∧
    (init miniHost (Settings.plain true false "(" [])
        (activated miniHost (Settings.plain true true "" ["TODO"]) (some "TODO")).state).state.decorationTypes
      = [] ∧
    (init miniHost (Settings.plain true false "(" [])
        (activated miniHost (Settings.plain true true "" ["TODO"]) (some "TODO")).state).state.patterns.map
        PatternEntry.source = ["("] :=
  ⟨by decide, failed_init_leaves_texts miniHost _ _ (by decide), by decide, by decide,
    by decide⟩

/-! ## The scan over all patterns -/

theorem whileExec_keys (s : State) (text pattern : String) :
    ∀ (fuel : Nat) (re : RegExp) (sc : Scan) (k : String),
      k ∈ Obj.keys (whileExec s text pattern fuel re sc).state.2.mathes →
        k = pattern ∨ k ∈ Obj.keys sc.mathes := by
  intro fuel
  induction fuel with
  | zero =>
    intro re sc k hk
    exact Or.inr hk
  | succ fuel ih =>
    intro re sc k hk
    simp only [whileExec] at hk
    rcases hex : re.exec text with ⟨_ | m, re'⟩
    · rw [hex] at hk
      exact Or.inr hk
    · rw [hex] at hk
      simp only [] at hk
      cases hr : recordMatch s pattern m sc with
      | none =>
        rw [hr] at hk
        exact Or.inr hk
      | some sc' =>
        rw [hr] at hk
        rcases ih re' sc' k hk with h | h
        · exact Or.inl h
        · rw [recordMatch_some s pattern m sc sc' hr, Obj.mem_keys_set] at h
          exact h

theorem recordMatch_multi (s : State) (pattern : String) (m : Match) (sc sc' : Scan)
    (hmode : trimTruthy s.keywordsPattern = false)
    (h : recordMatch s pattern m sc = some sc') :
    sc'.decorationTypes = sc.decorationTypes ∧ sc'.created = sc.created := by
  unfold recordMatch at h
  cases hp : pushDecoration sc.mathes pattern ⟨⟨m.index, m.index + m.value.length⟩⟩ with
  | none =>
    rw [hp] at h
    cases h
  | some mathes =>
    rw [hp] at h
    simp only [hmode, Bool.false_and, Bool.false_eq_true, if_false, Option.some.injEq] at h
    rw [← h]
    exact ⟨rfl, rfl⟩

theorem whileExec_multi (s : State) (text pattern : String)
    (hmode : trimTruthy s.keywordsPattern = false) :
    ∀ (fuel : Nat) (re : RegExp) (sc : Scan),
      (whileExec s text pattern fuel re sc).state.2.decorationTypes = sc.decorationTypes ∧
        (whileExec s text pattern fuel re sc).state.2.created = sc.created := by
  intro fuel
  induction fuel with
  | zero =>
    intro re sc
    exact ⟨rfl, rfl⟩
  | succ fuel ih =>
    intro re sc
    simp only [whileExec]
    rcases hex : re.exec text with ⟨_ | m, re'⟩
    · exact ⟨rfl, rfl⟩
    · simp only []
      cases hr : recordMatch s pattern m sc with
      | none => exact ⟨rfl, rfl⟩
      | some sc' =>
        obtain ⟨h1, h2⟩ := ih re' sc'
        obtain ⟨r1, r2⟩ := recordMatch_multi s pattern m sc sc' hmode hr
        exact ⟨h1.trans r1, h2.trans r2⟩

theorem whileExec_done_mathes (s : State) (text pattern : String) :
    ∀ (fuel : Nat) (re : RegExp) (sc : Scan) (w : RegExp × Scan),
      whileExec s text pattern fuel re sc = Outcome.done w →
        rangesOf w.2.mathes pattern
          = rangesOf sc.mathes pattern ++ successiveMatches text fuel re := by
  intro fuel
  induction fuel with
  | zero =>
    intro re sc w h
    simp [whileExec] at h
  | succ fuel ih =>
    intro re sc w h
    simp only [whileExec] at h
    simp only [successiveMatches]
    rcases hex : re.exec text with ⟨_ | m, re'⟩
    · rw [hex] at h
      simp only [Outcome.done.injEq] at h
      rw [← h]
      simp
    · rw [hex] at h
      simp only [] at h
      cases hr : recordMatch s pattern m sc with
      | none =>
        rw [hr] at h
        cases h
      | some sc' =>
        rw [hr] at h
        rw [ih re' sc' w h, rangesOf_recordMatch s pattern m sc sc' hr]
        simp

theorem forPatterns_state (s : State) (text : String) (fuel : Nat) (p : Pattern)
    (rest : List PatternEntry) (sc : Scan) :
    (forPatterns s text fuel (PatternEntry.compiled p :: rest) sc).state.2 =
      match whileExec s text p.text fuel p.regexp sc with
      | Outcome.done w => (forPatterns s text fuel rest w.2).state.2
      | Outcome.throws _ w => w.2
      | Outcome.running w => w.2 := by
  simp only [forPatterns]
  cases whileExec s text p.text fuel p.regexp sc with
  | done w =>
    simp only []
    cases forPatterns s text fuel rest w.2 <;> rfl
  | throws e w => rfl
  | running w => rfl

theorem forPatterns_keys (s : State) (text : String) (fuel : Nat) :
    ∀ (ps : List PatternEntry) (sc : Scan) (k : String),
      k ∈ Obj.keys (forPatterns s text fuel ps sc).state.2.mathes →
        k ∈ Obj.keys sc.mathes ∨ k ∈ ps.map PatternEntry.source := by
  intro ps
  induction ps with
  | nil =>
    intro sc k hk
    exact Or.inl hk
  | cons e rest ih =>
    intro sc k hk
    cases e with
    | raw p => exact Or.inl hk
    | compiled p =>
      rw [forPatterns_state] at hk
      have hw := whileExec_keys s text p.text fuel p.regexp sc k
      cases hwe : whileExec s text p.text fuel p.regexp sc with
      | done w =>
        rw [hwe] at hk hw
        rcases ih w.2 k hk with h | h
        · rcases hw h with h' | h'
          · exact Or.inr (by simp [PatternEntry.source, h'])
          · exact Or.inl h'
        · exact Or.inr (by simp [h])
      | throws err w =>
        rw [hwe] at hk hw
        rcases hw hk with h' | h'
        · exact Or.inr (by simp [PatternEntry.source, h'])
        · exact Or.inl h'
      | running w =>
        rw [hwe] at hk hw
        rcases hw hk with h' | h'
        · exact Or.inr (by simp [PatternEntry.source, h'])
        · exact Or.inl h'

theorem forPatterns_multi (s : State) (text : String) (fuel : Nat)
    (hmode : trimTruthy s.keywordsPattern = false) :
    ∀ (ps : List PatternEntry) (sc : Scan),
      (forPatterns s text fuel ps sc).state.2.decorationTypes = sc.decorationTypes ∧
        (forPatterns s text fuel ps sc).state.2.created = sc.created := by
  intro ps
  induction ps with
  | nil =>
    intro sc
    exact ⟨rfl, rfl⟩
  | cons e rest ih =>
    intro sc
    cases e with
    | raw p => exact ⟨rfl, rfl⟩
    | compiled p =>
      rw [forPatterns_state]
      have hw := whileExec_multi s text p.text hmode fuel p.regexp sc
      cases hwe : whileExec s text p.text fuel p.regexp sc with
      | done w =>
        rw [hwe] at hw
        obtain ⟨i1, i2⟩ := ih w.2
        exact ⟨i1.trans hw.1, i2.trans hw.2⟩
      | throws err w =>
        rw [hwe] at hw
        exact hw
      | running w =>
        rw [hwe] at hw
        exact hw

theorem forPatterns_cons_done (s : State) (text : String) (fuel : Nat) (p : Pattern)
    (rest : List PatternEntry) (sc : Scan) (r : List PatternEntry × Scan)
    (h : forPatterns s text fuel (PatternEntry.compiled p :: rest) sc = Outcome.done r) :
    ∃ w q, whileExec s text p.text fuel p.regexp sc = Outcome.done w ∧
      forPatterns s text fuel rest w.2 = Outcome.done q ∧ r.2 = q.2 := by
  simp only [forPatterns] at h
  cases hwe : whileExec s text p.text fuel p.regexp sc with
  | done w =>
    rw [hwe] at h
    simp only [] at h
    cases hq : forPatterns s text fuel rest w.2 with
    | done q =>
      rw [hq] at h
      simp only [Outcome.done.injEq] at h
      exact ⟨w, q, rfl, hq, by rw [← h]; rfl⟩
    | throws e q =>
      rw [hq] at h
      cases h
    | running q =>
      rw [hq] at h
      cases h
  | throws e w =>
    rw [hwe] at h
    cases h
  | running w =>
    rw [hwe] at h
    cases h

theorem forPatterns_done_mathes (s : State) (text : String) (fuel : Nat) :
    ∀ (ps : List PatternEntry) (sc : Scan) (r : List PatternEntry × Scan),
      forPatterns s text fuel ps sc = Outcome.done r →
      (ps.map PatternEntry.source).Nodup →
        (∀ p, PatternEntry.compiled p ∈ ps →
          rangesOf r.2.mathes p.text
            = rangesOf sc.mathes p.text ++ successiveMatches text fuel p.regexp) ∧
        ∀ k, k ∉ ps.map PatternEntry.source → Obj.get r.2.mathes k = Obj.get sc.mathes k := by
  intro ps
  induction ps with
  | nil =>
    intro sc r h _
    simp only [forPatterns, Outcome.done.injEq] at h
    rw [← h]
    simp
  | cons e rest ih =>
    intro sc r h hnd
    cases e with
    | raw p => simp [forPatterns] at h
    | compiled p =>
      obtain ⟨w, q, hw, hq, hr⟩ := forPatterns_cons_done s text fuel p rest sc r h
      have hnd' : (rest.map PatternEntry.source).Nodup := (List.nodup_cons.mp hnd).2
      have hnotin : p.text ∉ rest.map PatternEntry.source := (List.nodup_cons.mp hnd).1
      obtain ⟨i1, i2⟩ := ih w.2 q hq hnd'
      have hwm1 := whileExec_done_mathes s text p.text fuel p.regexp sc w hw
      have hwm2 := whileExec_other_keys s text p.text fuel p.regexp sc
      rw [hw] at hwm2
      simp only [Outcome.state] at hwm2
      rw [hr]
      refine ⟨?_, ?_⟩
      · intro p' hp'
        rcases List.mem_cons.mp hp' with heq | hmem
        · have hpp : p' = p := by
            injection heq
          rw [hpp]
          have h1 : rangesOf q.2.mathes p.text = rangesOf w.2.mathes p.text := by
            simp only [rangesOf, i2 p.text hnotin]
          rw [h1, hwm1]
        · have hin : p'.text ∈ rest.map PatternEntry.source :=
            List.mem_map.mpr ⟨PatternEntry.compiled p', hmem, rfl⟩
          have hne : p'.text ≠ p.text := by
            intro he
            rw [he] at hin
            exact hnotin hin
          rw [i1 p' hmem]
          simp only [rangesOf, hwm2 p'.text hne]
      · intro k hk
        simp only [List.map_cons, List.mem_cons, not_or] at hk
        rw [i2 k hk.2]
        exact hwm2 k hk.1

/-! ## The calls of the `forEach` loop -/

theorem forEachKey_done_calls (host : Host) (s : State) (mathes : Obj (List Decoration))
    (decorationTypes : Obj DecorationType) :
    ∀ (keys : List String) (calls calls' : List (Option Nat × RangeOption)),
      forEachKey host s mathes decorationTypes keys calls = Outcome.done calls' →
        ∃ new, calls' = calls ++ new ∧
          ∀ v ∈ keys, ∀ dt,
            Obj.get decorationTypes (normalizeKey host s.isCaseSensitive v) = some dt →
              (some dt.target, if s.settings.isEnable then
                  rangeOptionOf mathes (normalizeKey host s.isCaseSensitive v)
                else RangeOption.ranges []) ∈ new := by
  intro keys
  induction keys with
  | nil =>
    intro calls calls' h
    simp only [forEachKey, Outcome.done.injEq] at h
    exact ⟨[], by simp [h], by simp⟩
  | cons v vs ih =>
    intro calls calls' h
    simp only [forEachKey] at h
    cases hg : Obj.get decorationTypes (normalizeKey host s.isCaseSensitive v) with
    | none =>
      rw [hg] at h
      simp only [] at h
      split at h
      · obtain ⟨new, h1, h2⟩ := ih _ _ h
        refine ⟨_ :: new, by simpa using h1, ?_⟩
        intro v' hv' dt' hdt'
        rcases List.mem_cons.mp hv' with rfl | hv'
        · rw [hg] at hdt'
          cases hdt'
        · exact List.mem_cons_of_mem _ (h2 v' hv' dt' hdt')
      · cases h
    | some dt =>
      rw [hg] at h
      obtain ⟨new, h1, h2⟩ := ih _ _ h
      refine ⟨_ :: new, by simpa using h1, ?_⟩
      intro v' hv' dt' hdt'
      rcases List.mem_cons.mp hv' with rfl | hv'
      · rw [hg] at hdt'
        cases hdt'
        exact List.mem_cons_self _ _
      · exact List.mem_cons_of_mem _ (h2 v' hv' dt' hdt')

theorem forEachKey_resolves (host : Host) (s : State) (mathes : Obj (List Decoration))
    (decorationTypes : Obj DecorationType) :
    ∀ (keys : List String) (calls : List (Option Nat × RangeOption)),
      (∀ v ∈ keys, Obj.get decorationTypes (normalizeKey host s.isCaseSensitive v) ≠ none) →
        ∃ calls', forEachKey host s mathes decorationTypes keys calls = Outcome.done calls' := by
  intro keys
  induction keys with
  | nil =>
    intro calls _
    exact ⟨calls, rfl⟩
  | cons v vs ih =>
    intro calls h
    simp only [forEachKey]
    cases hg : Obj.get decorationTypes (normalizeKey host s.isCaseSensitive v) with
    | none => exact absurd hg (h v (List.mem_cons_self _ _))
    | some dt =>
      exact ih _ (fun v' hv' => h v' (List.mem_cons_of_mem _ hv'))

/-! ## Termination of the scan when no match is empty -/

theorem whileExec_returns (s : State) (text pattern : String) (m : Matcher)
    (hne : ∀ t i, m.matchAt t i ≠ some 0) (hpat : isInherited pattern = false) :
    ∀ (fuel : Nat) (re : RegExp) (sc : Scan), re.matcher = m →
      text.length + 1 - re.lastIndex < fuel →
        ∃ w, whileExec s text pattern fuel re sc = Outcome.done w := by
  intro fuel
  induction fuel with
  | zero =>
    intro re sc _ h
    omega
  | succ fuel ih =>
    intro re sc hm h
    simp only [whileExec]
    rcases hex : re.exec text with ⟨_ | mt, re'⟩
    · exact ⟨_, rfl⟩
    · obtain ⟨hle, hmatch, hin, hre⟩ := exec_some re text mt re' hex
      have hpos : mt.value.length ≠ 0 := by
        intro h0
        rw [hm, h0] at hmatch
        exact hne _ _ hmatch
      simp only []
      cases hr : recordMatch s pattern mt sc with
      | none =>
        have hi := ((recordMatch_eq_none s pattern mt sc).mp hr).2
        rw [hpat] at hi
        cases hi
      | some sc' =>
        apply ih
        · rw [hre]
          exact hm
        · rw [hre]
          simp only
          omega

theorem forPatterns_returns (s : State) (text : String) (fuel : Nat)
    (hfuel : text.length + 1 < fuel) :
    ∀ (ps : List PatternEntry) (sc : Scan),
      (∀ e ∈ ps, ∃ p, e = PatternEntry.compiled p ∧ isInherited p.text = false ∧
        ∀ t i, p.regexp.matcher.matchAt t i ≠ some 0) →
        ∃ r, forPatterns s text fuel ps sc = Outcome.done r := by
  intro ps
  induction ps with
  | nil =>
    intro sc _
    exact ⟨_, rfl⟩
  | cons e rest ih =>
    intro sc h
    obtain ⟨p, rfl, hpat, hne⟩ := h e (List.mem_cons_self _ _)
    obtain ⟨w, hw⟩ := whileExec_returns s text p.text p.regexp.matcher hne hpat fuel p.regexp sc
      rfl (by omega)
    obtain ⟨q, hq⟩ := ih w.2 (fun e' he' => h e' (List.mem_cons_of_mem _ he'))
    simp only [forPatterns, hw, hq]
    exact ⟨_, rfl⟩

/-! ## The scan misses no match -/

theorem search_none (m : Matcher) (t : List Char) :
    ∀ fuel i, search m t fuel i = none → ∀ j, i ≤ j → j < i + fuel → m.matchAt t j = none := by
  intro fuel
  induction fuel with
  | zero =>
    intro i _ j h1 h2
    omega
  | succ fuel ih =>
    intro i h j h1 h2
    simp only [search] at h
    cases hm : m.matchAt t i with
    | some n =>
      rw [hm] at h
      cases h
    | none =>
      rw [hm] at h
      rcases Nat.eq_or_lt_of_le h1 with rfl | hlt
      · exact hm
      · exact ih (i + 1) h j hlt (by omega)

theorem search_first (m : Matcher) (t : List Char) :
    ∀ fuel i j n, search m t fuel i = some (j, n) →
      ∀ k, i ≤ k → k < j → m.matchAt t k = none := by
  intro fuel
  induction fuel with
  | zero =>
    intro i j n h
    simp [search] at h
  | succ fuel ih =>
    intro i j n h k h1 h2
    simp only [search] at h
    cases hm : m.matchAt t i with
    | some n' =>
      rw [hm] at h
      simp only [Option.some.injEq, Prod.mk.injEq] at h
      omega
    | none =>
      rw [hm] at h
      rcases Nat.eq_or_lt_of_le h1 with rfl | hlt
      · exact hm
      · exact ih (i + 1) j n h k hlt h2

theorem exec_none_covers (re : RegExp) (text : String) (re' : RegExp)
    (h : re.exec text = (none, re')) :
    ∀ j, re.lastIndex ≤ j → j ≤ text.length → re.matcher.matchAt text.data j = none := by
  intro j h1 h2
  unfold RegExp.exec at h
  split at h
  · omega
  · split at h
    · rename_i hs
      exact search_none re.matcher text.data _ _ hs j h1 (by omega)
    · exact absurd (congrArg Prod.fst h) (by simp)

theorem exec_some_first (re : RegExp) (text : String) (m : Match) (re' : RegExp)
    (h : re.exec text = (some m, re')) :
    ∀ j, re.lastIndex ≤ j → j < m.index → re.matcher.matchAt text.data j = none := by
  intro j h1 h2
  unfold RegExp.exec at h
  split at h
  · exact absurd (congrArg Prod.fst h) (by simp)
  · split at h
    · exact absurd (congrArg Prod.fst h) (by simp)
    · rename_i i n hs
      simp only [Prod.mk.injEq, Option.some.injEq] at h
      have hidx : m.index = i := by rw [← h.1]
      rw [hidx] at h2
      exact search_first re.matcher text.data _ _ _ _ hs j h1 h2

theorem whileExec_done_covers (s : State) (text pattern : String) :
    ∀ (fuel : Nat) (re : RegExp) (sc : Scan) (w : RegExp × Scan),
      whileExec s text pattern fuel re sc = Outcome.done w →
        ∀ j, re.lastIndex ≤ j → j ≤ text.length →
          re.matcher.matchAt text.data j ≠ none →
            ∃ d ∈ successiveMatches text fuel re,
              d.range.startOffset ≤ j ∧ (j = d.range.startOffset ∨ j < d.range.endOffset) := by
  intro fuel
  induction fuel with
  | zero =>
    intro re sc w h
    simp [whileExec] at h
  | succ fuel ih =>
    intro re sc w h j h1 h2 h3
    simp only [whileExec] at h
    simp only [successiveMatches]
    rcases hex : re.exec text with ⟨_ | m, re'⟩
    · exact absurd (exec_none_covers re text re' hex j h1 h2) h3
    · rw [hex] at h
      simp only [] at h
      cases hr : recordMatch s pattern m sc with
      | none =>
        rw [hr] at h
        cases h
      | some sc' =>
        rw [hr] at h
        simp only [] at h
        obtain ⟨_, _, _, hre⟩ := exec_some re text m re' hex
        by_cases hlt : j < m.index
        · exact absurd (exec_some_first re text m re' hex j h1 hlt) h3
        · by_cases hin : j < m.index + m.value.length
          · refine ⟨⟨⟨m.index, m.index + m.value.length⟩⟩, List.mem_cons_self _ _, ?_,
              Or.inr hin⟩
            simp only
            omega
          · have hm : re'.matcher = re.matcher := by rw [hre]
            have hl : re'.lastIndex = m.index + m.value.length := by rw [hre]
            obtain ⟨d, hd, hd1, hd2⟩ := ih re' sc' w h j (by omega) h2 (by rw [hm]; exact h3)
            exact ⟨d, List.mem_cons_of_mem _ hd, hd1, hd2⟩

theorem forPatterns_done_covers (s : State) (text : String) (fuel : Nat) :
    ∀ (ps : List PatternEntry) (sc : Scan) (r : List PatternEntry × Scan),
      forPatterns s text fuel ps sc = Outcome.done r →
        ∀ p, PatternEntry.compiled p ∈ ps →
          ∀ j, p.regexp.lastIndex ≤ j → j ≤ text.length →
            p.regexp.matcher.matchAt text.data j ≠ none →
              ∃ d ∈ successiveMatches text fuel p.regexp,
                d.range.startOffset ≤ j ∧
                  (j = d.range.startOffset ∨ j < d.range.endOffset) := by
  intro ps
  induction ps with
  | nil =>
    intro sc r _ p hp
    simp at hp
  | cons e rest ih =>
    intro sc r h p hp
    cases e with
    | raw q => simp [forPatterns] at h
    | compiled q =>
      obtain ⟨w, q', hw, hq, _⟩ := forPatterns_cons_done s text fuel q rest sc r h
      rcases List.mem_cons.mp hp with heq | hmem
      · have hpq : p = q := by
          injection heq
        rw [hpq]
        exact whileExec_done_covers s text q.text fuel q.regexp sc w hw
      · exact ih w.2 q' hq p hmem

/-! ## What `init` builds -/

theorem getAssembledData_keys_aux (host : Host) (customDefaultStyle : Style)
    (isCaseSensitive : Bool) :
    ∀ (keywords : List KeywordRule) (acc : Obj Style), (Obj.keys acc).Nodup →
      (Obj.keys (keywords.foldl
        (fun result rule =>
          if trimTruthy rule.keyword then
            Obj.set result (normalizeKey host isCaseSensitive rule.keyword)
              (Obj.assign (Obj.assign (Obj.assign [] host.DEFAULT_STYLE) customDefaultStyle)
                rule.styleOverrides)
          else result) acc)).Nodup ∧
      ∀ k, k ∈ Obj.keys (keywords.foldl
        (fun result rule =>
          if trimTruthy rule.keyword then
            Obj.set result (normalizeKey host isCaseSensitive rule.keyword)
              (Obj.assign (Obj.assign (Obj.assign [] host.DEFAULT_STYLE) customDefaultStyle)
                rule.styleOverrides)
          else result) acc) ↔
        k ∈ Obj.keys acc ∨ ∃ rule ∈ keywords, trimTruthy rule.keyword = true ∧
          k = normalizeKey host isCaseSensitive rule.keyword := by
  intro keywords
  induction keywords with
  | nil =>
    intro acc h
    simp [h]
  | cons rule rest ih =>
    intro acc h
    simp only [List.foldl_cons]
    by_cases ht : trimTruthy rule.keyword = true
    · simp only [ht, if_true]
      obtain ⟨i1, i2⟩ := ih _ (Obj.keys_set_nodup acc
        (normalizeKey host isCaseSensitive rule.keyword)
        (Obj.assign (Obj.assign (Obj.assign [] host.DEFAULT_STYLE) customDefaultStyle)
          rule.styleOverrides) h)
      refine ⟨i1, ?_⟩
      intro k
      rw [i2 k, Obj.mem_keys_set]
      constructor
      · rintro ((h1 | h1) | ⟨r, hr, h2, h3⟩)
        · exact Or.inr ⟨rule, List.mem_cons_self _ _, ht, h1⟩
        · exact Or.inl h1
        · exact Or.inr ⟨r, List.mem_cons_of_mem _ hr, h2, h3⟩
      · rintro (h1 | ⟨r, hr, h2, h3⟩)
        · exact Or.inl (Or.inr h1)
        · rcases List.mem_cons.mp hr with rfl | hr
          · exact Or.inl (Or.inl h3)
          · exact Or.inr ⟨r, hr, h2, h3⟩
    · simp only [ht, Bool.false_eq_true, if_false]
      obtain ⟨i1, i2⟩ := ih acc h
      refine ⟨i1, ?_⟩
      intro k
      rw [i2 k]
      constructor
      · rintro (h1 | ⟨r, hr, h2, h3⟩)
        · exact Or.inl h1
        · exact Or.inr ⟨r, List.mem_cons_of_mem _ hr, h2, h3⟩
      · rintro (h1 | ⟨r, hr, h2, h3⟩)
        · exact Or.inl h1
        · rcases List.mem_cons.mp hr with rfl | hr
          · exact absurd h2 ht
          · exact Or.inr ⟨r, hr, h2, h3⟩

theorem getAssembledData_keys (host : Host) (keywords : List KeywordRule)
    (customDefaultStyle : Style) (isCaseSensitive : Bool) :
    (Obj.keys (getAssembledData host keywords customDefaultStyle isCaseSensitive)).Nodup ∧
      ∀ k, k ∈ Obj.keys (getAssembledData host keywords customDefaultStyle isCaseSensitive) ↔
        ∃ rule ∈ keywords, trimTruthy rule.keyword = true ∧
          k = normalizeKey host isCaseSensitive rule.keyword := by
  obtain ⟨h1, h2⟩ := getAssembledData_keys_aux host customDefaultStyle isCaseSensitive keywords []
    (by simp [Obj.keys])
  refine ⟨h1, ?_⟩
  intro k
  have := h2 k
  simpa [Obj.keys] using this

theorem addDecorationType_keys (host : Host) (isCaseSensitive : Bool) (assembledData : Obj Style)
    (acc : Obj DecorationType × List Style) (v k : String) :
    k ∈ Obj.keys (addDecorationType host isCaseSensitive assembledData acc v).1 ↔
      (k = normalizeKey host isCaseSensitive v ∧
          normalizeKey host isCaseSensitive v ≠ "__proto__") ∨ k ∈ Obj.keys acc.1 := by
  unfold addDecorationType
  simp only []
  split <;> exact Obj.mem_keys_put _ _ _ _

theorem foldl_addDecorationType_keys (host : Host) (isCaseSensitive : Bool)
    (assembledData : Obj Style) :
    ∀ (ks : List String) (acc : Obj DecorationType × List Style) (k : String),
      k ∈ Obj.keys (ks.foldl (addDecorationType host isCaseSensitive assembledData) acc).1 ↔
        k ∈ Obj.keys acc.1 ∨
          (k ∈ ks.map (normalizeKey host isCaseSensitive) ∧ k ≠ "__proto__") := by
  intro ks
  induction ks with
  | nil =>
    intro acc k
    simp
  | cons v vs ih =>
    intro acc k
    simp only [List.foldl_cons, List.map_cons, List.mem_cons]
    rw [ih, addDecorationType_keys]
    constructor
    · rintro ((⟨h, hp⟩ | h) | ⟨h, hp⟩)
      · exact Or.inr ⟨Or.inl h, h ▸ hp⟩
      · exact Or.inl h
      · exact Or.inr ⟨Or.inr h, hp⟩
    · rintro (h | ⟨h | h, hp⟩)
      · exact Or.inl (Or.inr h)
      · exact Or.inl (Or.inl ⟨h, h ▸ hp⟩)
      · exact Or.inr ⟨h, hp⟩

theorem normalizeKey_idem (host : Host) (isCaseSensitive : Bool)
    (hup : ∀ x, host.toUpperCase (host.toUpperCase x) = host.toUpperCase x) (v : String) :
    normalizeKey host isCaseSensitive (normalizeKey host isCaseSensitive v)
      = normalizeKey host isCaseSensitive v := by
  unfold normalizeKey
  cases isCaseSensitive <;> simp [hup]

/-! ## Upper-casing by `miniHost` -/

theorem toUpper_toUpper (c : Char) : c.toUpper.toUpper = c.toUpper := by
  by_cases h : (c.toNat ≥ 97 ∧ c.toNat ≤ 122)
  · have h1 : c.toUpper = Char.ofNat (c.toNat - 32) := by
      simp only [Char.toUpper, h, and_self, if_true]
    rw [h1]
    obtain ⟨lo, hi⟩ := h
    generalize c.toNat = n at lo hi
    interval_cases n <;> rfl
  · have h1 : c.toUpper = c := by
      simp only [Char.toUpper, h, if_false]
    rw [h1, h1]

theorem toUpper_not_lower (c : Char) : c.toUpper.isLower = false := by
  by_cases h : (c.toNat ≥ 97 ∧ c.toNat ≤ 122)
  · have h1 : c.toUpper = Char.ofNat (c.toNat - 32) := by
      simp only [Char.toUpper, h, and_self, if_true]
    rw [h1]
    obtain ⟨lo, hi⟩ := h
    generalize c.toNat = n at lo hi
    interval_cases n <;> rfl
  · have h1 : c.toUpper = c := by
      simp only [Char.toUpper, h, if_false]
    rw [h1]
    have hv : c.val.toNat = c.toNat := rfl
    simp only [Char.isLower, ge_iff_le, Bool.and_eq_false_imp, decide_eq_true_eq,
      decide_eq_false_iff_not, not_le]
    intro hlo
    by_contra hhi
    apply h
    constructor
    · have := UInt32.le_def.mp hlo
      simpa [← hv] using this
    · have := UInt32.le_def.mp hhi
      simpa [← hv] using this

theorem upperChar_not_lower (c x : Char) (hx : x ∈ upperChar c) : x.isLower = false := by
  unfold upperChar at hx
  split at hx
  · simp only [List.mem_cons, List.mem_singleton, List.not_mem_nil, or_false, or_self] at hx
    rw [hx]
    rfl
  · simp only [List.mem_singleton] at hx
    rw [hx]
    exact toUpper_not_lower c

theorem upperChar_idem (c x : Char) (hx : x ∈ upperChar c) : upperChar x = [x] := by
  unfold upperChar at hx
  split at hx
  · simp only [List.mem_cons, List.mem_singleton, List.not_mem_nil, or_false, or_self] at hx
    rw [hx]
    rfl
  · rename_i hc
    simp only [List.mem_singleton] at hx
    rw [hx]
    unfold upperChar
    have hne : c.toUpper ≠ '\u00df' := by
      intro he
      have hl := toUpper_not_lower c
      by_cases h : (c.toNat ≥ 97 ∧ c.toNat ≤ 122)
      · have h1 : c.toUpper = Char.ofNat (c.toNat - 32) := by
          simp only [Char.toUpper, h, and_self, if_true]
        rw [h1] at he
        obtain ⟨lo, hi⟩ := h
        generalize c.toNat = n at lo hi he
        interval_cases n <;> exact absurd he (by decide)
      · have h1 : c.toUpper = c := by
          simp only [Char.toUpper, h, if_false]
        rw [h1] at he
        exact hc he
    simp only [hne, if_false, toUpper_toUpper]

theorem miniHost_toUpperCase_idem (x : String) :
    miniHost.toUpperCase (miniHost.toUpperCase x) = miniHost.toUpperCase x := by
  show String.mk ((String.mk (x.data.flatMap upperChar)).data.flatMap upperChar)
    = String.mk (x.data.flatMap upperChar)
  congr 1
  show (x.data.flatMap upperChar).flatMap upperChar = x.data.flatMap upperChar
  generalize x.data = l
  induction l with
  | nil => rfl
  | cons c cs ih =>
    simp only [List.flatMap_cons, List.flatMap_append, ih]
    congr 1
    have h : ∀ ys : List Char, (∀ y ∈ ys, upperChar y = [y]) → ys.flatMap upperChar = ys := by
      intro ys
      induction ys with
      | nil =>
        intro _
        rfl
      | cons y ys ihy =>
        intro hy
        simp only [List.flatMap_cons, hy y (List.mem_cons_self _ _),
          ihy (fun z hz => hy z (List.mem_cons_of_mem _ hz))]
        rfl
    exact h _ (fun y hy => upperChar_idem c y hy)

theorem inherited_has_lower (k : String) (h : isInherited k = true) :
    k.data.any Char.isLower = true := by
  simp only [isInherited, inheritedNames, List.contains_eq_any_beq, List.any_cons,
    List.any_nil, Bool.or_false, Bool.or_eq_true, beq_iff_eq] at h
  rcases h with h | h | h | h | h | h | h | h | h | h | h | h <;> (rw [h]; decide)

theorem miniHost_toUpperCase_not_inherited (x : String) :
    isInherited (miniHost.toUpperCase x) = false := by
  cases hi : isInherited (miniHost.toUpperCase x) with
  | false => rfl
  | true =>
    have h := inherited_has_lower _ hi
    simp only [List.any_eq_true] at h
    obtain ⟨c, hc, hl⟩ := h
    have hc' : c ∈ x.data.flatMap upperChar := hc
    obtain ⟨y, _, hy⟩ := List.mem_flatMap.mp hc'
    rw [upperChar_not_lower y c hy] at hl
    cases hl

/-- C4, amended: after a successful `init`, in multi-keyword mode the texts of
`patterns` are the class keys of `assembledData`, and in single-pattern mode
with `isCaseSensitive` true the one text is the `keywordsPattern` string; every
key of `mathes` after the scan is one of the texts of `patterns`; the loop of
a matcher whose text names no inherited property adds the ranges of its
matches under the matcher's own text; and it changes no other key. -/
theorem class_key_is_pattern_text (host : Host) (settings : Settings) (s0 s : State)
    (hinit : init host settings s0 = Outcome.done s) :
    (trimTruthy settings.keywordsPattern = false →
      s.patterns.map PatternEntry.source
        = Obj.keys (getAssembledData host settings.keywords settings.defaultStyle
            settings.isCaseSensitive)) ∧
    (trimTruthy settings.keywordsPattern = true → settings.isCaseSensitive = true →
      s.patterns.map PatternEntry.source = [settings.keywordsPattern]) ∧
    (∀ (text : String) (fuel : Nat) (k : String),
      k ∈ Obj.keys (scan s text fuel).state.2.mathes →
        k ∈ s.patterns.map PatternEntry.source) ∧
    (∀ (text : String) (fuel : Nat) (p : Pattern) (sc : Scan), isInherited p.text = false →
      rangesOf (whileExec s text p.text fuel p.regexp sc).state.2.mathes p.text
        = rangesOf sc.mathes p.text ++ successiveMatches text fuel p.regexp) ∧
    ∀ (text : String) (fuel : Nat) (p : Pattern) (sc : Scan) (k : String), k ≠ p.text →
      Obj.get (whileExec s text p.text fuel p.regexp sc).state.2.mathes k
        = Obj.get sc.mathes k := by
  have htexts : s.patterns.map PatternEntry.source
      = (initAssign host settings s0).patterns.map PatternEntry.source := by
    rcases init_cases host settings s0 with ⟨ps, hc, hi⟩ | ⟨_, hi⟩
    · rw [hi] at hinit
      simp only [Outcome.done.injEq] at hinit
      obtain ⟨h1, _⟩ := compileAll_some host _ _ ps hc
      rw [← hinit]
      simp only []
      rw [h1]
      simp only [List.map_map]
      exact List.map_congr_left (fun _ _ => rfl)
    · rw [hi] at hinit
      cases hinit
  refine ⟨?_, ?_, ?_, ?_, ?_⟩
  · intro hmode
    rw [htexts, (initAssign_multi host settings s0 hmode).1, map_source_raw]
  · intro hmode _
    rw [htexts, (initAssign_single host settings s0 hmode).1]
    rfl
  · intro text fuel k hk
    rcases forPatterns_keys s text fuel s.patterns _ k hk with h | h
    · simp [Obj.keys] at h
    · exact h
  · intro text fuel p sc hp
    exact whileExec_mathes s text p.text fuel p.regexp sc (Or.inr hp)
  · intro text fuel p sc k hk
    exact whileExec_other_keys s text p.text fuel p.regexp sc k hk

/-- Witness of C4 amended: the pattern `a+` in single-pattern mode, case
sensitive. -/
theorem class_key_is_pattern_text_witness :
    init miniHost (Settings.plain true true "a+" [])
        (State.atActivation (Settings.plain true true "a+" []) (some "aaab"))
      = Outcome.done (activated miniHost (Settings.plain true true "a+" []) (some "aaab")).state ∧
    ((trimTruthy (Settings.plain true true "a+" []).keywordsPattern = false →
      (activated miniHost (Settings.plain true true "a+" []) (some "aaab")).state.patterns.map PatternEntry.source
        = Obj.keys (getAssembledData miniHost (Settings.plain true true "a+" []).keywords (Settings.plain true true "a+" []).defaultStyle
            (Settings.plain true true "a+" []).isCaseSensitive)) ∧
    (trimTruthy (Settings.plain true true "a+" []).keywordsPattern = true → (Settings.plain true true "a+" []).isCaseSensitive = true →
      (activated miniHost (Settings.plain true true "a+" []) (some "aaab")).state.patterns.map PatternEntry.source = [(Settings.plain true true "a+" []).keywordsPattern]) ∧
    (∀ (text : String) (fuel : Nat) (k : String),
      k ∈ Obj.keys (scan (activated miniHost (Settings.plain true true "a+" []) (some "aaab")).state text fuel).state.2.mathes →
        k ∈ (activated miniHost (Settings.plain true true "a+" []) (some "aaab")).state.patterns.map PatternEntry.source) ∧
    (∀ (text : String) (fuel : Nat) (p : Pattern) (sc : Scan), isInherited p.text = false →
      rangesOf (whileExec (activated miniHost (Settings.plain true true "a+" []) (some "aaab")).state text p.text fuel p.regexp sc).state.2.mathes p.text
        = rangesOf sc.mathes p.text ++ successiveMatches text fuel p.regexp) ∧
    ∀ (text : String) (fuel : Nat) (p : Pattern) (sc : Scan) (k : String), k ≠ p.text →
      Obj.get (whileExec (activated miniHost (Settings.plain true true "a+" []) (some "aaab")).state text p.text fuel p.regexp sc).state.2.mathes k
        = Obj.get sc.mathes k) ∧
    (activated miniHost (Settings.plain true true "a+" []) (some "aaab")).state.patterns.map
        PatternEntry.source = ["a+"] :=
  ⟨rfl, class_key_is_pattern_text miniHost _ _ _ rfl, by decide⟩

/-! ## Case folding in multi-keyword mode -/

theorem init_multi_insensitive (host : Host) (s0 s : State)
    (hup : ∀ x, host.toUpperCase (host.toUpperCase x) = host.toUpperCase x)
    (hninh : ∀ x, isInherited (host.toUpperCase x) = false)
    (hcs : s0.settings.isCaseSensitive = false)
    (hmode : trimTruthy s0.settings.keywordsPattern = false)
    (hinit : init host s0.settings s0 = Outcome.done s) :
    s.settings = s0.settings ∧ s.activeEditor = s0.activeEditor ∧ s.calls = s0.calls ∧
    s.isCaseSensitive = false ∧ trimTruthy s.keywordsPattern = false ∧
    (s.patterns.map PatternEntry.source).Nodup ∧
    (∀ e ∈ s.patterns, ∃ p, e = PatternEntry.compiled p ∧ isInherited p.text = false) ∧
    (∀ v ∈ Obj.keys s.decorationTypes,
      normalizeKey host false v = v ∧ Obj.get s.decorationTypes v ≠ none) ∧
    ∀ rule ∈ s0.settings.keywords, trimTruthy rule.keyword = true →
      host.toUpperCase rule.keyword ∈ Obj.keys s.decorationTypes ∧
      ∃ m, host.newRegExp (host.toUpperCase rule.keyword) ⟨true, true⟩ = some m ∧
        PatternEntry.compiled ⟨host.toUpperCase rule.keyword,
          ⟨host.toUpperCase rule.keyword, ⟨true, true⟩, m, 0⟩⟩ ∈ s.patterns := by
  obtain ⟨f1, f2, f3, f4, f5, _⟩ := initAssign_fields host s0.settings s0
  obtain ⟨m1, m2⟩ := initAssign_multi host s0.settings s0 hmode
  obtain ⟨g1, g2⟩ := getAssembledData_keys host s0.settings.keywords s0.settings.defaultStyle
    s0.settings.isCaseSensitive
  rcases init_cases host s0.settings s0 with ⟨ps, hc, hi⟩ | ⟨_, hi⟩
  · rw [hi] at hinit
    simp only [Outcome.done.injEq] at hinit
    rw [m1, map_source_raw, hcs] at hc
    simp only [Bool.not_false] at hc
    obtain ⟨c1, c2⟩ := compileAll_some host _ _ ps hc
    have hkeys : ∀ v, v ∈ Obj.keys s.decorationTypes ↔
        v ∈ Obj.keys (getAssembledData host s0.settings.keywords s0.settings.defaultStyle
          false) := by
      intro v
      rw [← hinit]
      simp only [m2]
      rw [foldl_addDecorationType_keys, hcs]
      constructor
      · rintro (h | ⟨h, _⟩)
        · simp [Obj.keys] at h
        · obtain ⟨k, hk, rfl⟩ := List.mem_map.mp h
          obtain ⟨rule, hr, ht, rfl⟩ := (hcs ▸ g2 k).mp hk
          rw [normalizeKey_idem host false hup]
          exact hk
      · intro h
        obtain ⟨rule, hr, ht, rfl⟩ := (hcs ▸ g2 v).mp h
        refine Or.inr ⟨List.mem_map.mpr ⟨_, h, normalizeKey_idem host false hup _⟩, ?_⟩
        intro hp
        have hi := hninh rule.keyword
        have hn : normalizeKey host false rule.keyword = host.toUpperCase rule.keyword := rfl
        rw [← hn, hp, isInherited_proto] at hi
        cases hi
    have hsrc : ps.map PatternEntry.source
        = Obj.keys (getAssembledData host s0.settings.keywords s0.settings.defaultStyle
            false) := by
      rw [c1]
      simp only [List.map_map]
      exact List.map_id'' (fun _ => rfl) _
    refine ⟨by rw [← hinit]; exact f3, by rw [← hinit]; exact f4, by rw [← hinit]; exact f5,
      by rw [← hinit]; exact f2.trans hcs, by rw [← hinit]; exact f1 ▸ hmode, ?_, ?_, ?_, ?_⟩
    · rw [← hinit]
      simp only [hsrc]
      exact hcs ▸ g1
    · intro e he
      rw [← hinit] at he
      simp only [c1, List.mem_map] at he
      obtain ⟨k, hk, rfl⟩ := he
      refine ⟨_, rfl, ?_⟩
      obtain ⟨rule, _, _, rfl⟩ := (hcs ▸ g2 k).mp hk
      exact hninh rule.keyword
    · intro v hv
      have hv' := (hkeys v).mp hv
      obtain ⟨rule, hr, ht, rfl⟩ := (hcs ▸ g2 v).mp hv'
      refine ⟨normalizeKey_idem host false hup _, ?_⟩
      intro hnone
      exact ((Obj.get_eq_none_iff _ _).mp hnone) hv
    · intro rule hr ht
      have hk : host.toUpperCase rule.keyword
          ∈ Obj.keys (getAssembledData host s0.settings.keywords s0.settings.defaultStyle
            false) :=
        (hcs ▸ g2 (host.toUpperCase rule.keyword)).mpr ⟨rule, hr, ht, rfl⟩
      refine ⟨(hkeys _).mpr hk, ?_⟩
      have hne := c2 _ hk
      cases hm : host.newRegExp (host.toUpperCase rule.keyword) ⟨true, true⟩ with
      | none => exact absurd hm hne
      | some m =>
        refine ⟨m, rfl, ?_⟩
        rw [← hinit]
        simp only [c1]
        refine List.mem_map.mpr ⟨host.toUpperCase rule.keyword, hk, ?_⟩
        simp [hm]
  · rw [hi] at hinit
    cases hinit

/-! ## Plain keywords under `miniHost` -/

theorem readChar_plain (r : Reader) (c : Char) (hesc : r.escaped = false)
    (hc : isSyntaxChar c = false) :
    readChar r c = some { r with terms := Regex.chr c :: r.terms, quantifiable := true } := by
  have h := hc
  simp only [isSyntaxChar, List.mem_cons, List.mem_singleton, List.not_mem_nil, or_false,
    decide_eq_false_iff_not, not_or] at h
  obtain ⟨_, _, h3, h4, h5, h6, h7, h8, h9, _, _, _, _, h14⟩ := h
  unfold readChar
  simp [hesc, h3, h4, h5, h6, h7, h8, h9, h14, hc]

theorem foldl_readChar_plain :
    ∀ (cs : List Char) (r : Reader), r.escaped = false →
      (∀ c ∈ cs, isSyntaxChar c = false) →
        ∃ q, cs.foldl (fun r c => r.bind (fun r => readChar r c)) (some r)
          = some ⟨r.stack, r.alts, (cs.map Regex.chr).reverse ++ r.terms, q, false⟩ := by
  intro cs
  induction cs with
  | nil =>
    intro r hesc _
    refine ⟨r.quantifiable, ?_⟩
    simp only [List.foldl_nil, List.map_nil, List.reverse_nil, List.nil_append]
    rw [← hesc]
  | cons c cs ih =>
    intro r hesc hall
    have hstep : ((some r).bind fun r => readChar r c)
        = some { r with terms := Regex.chr c :: r.terms, quantifiable := true } :=
      readChar_plain r c hesc (hall c (List.mem_cons_self _ _))
    simp only [List.foldl_cons]
    rw [hstep]
    obtain ⟨q, hq⟩ := ih { r with terms := Regex.chr c :: r.terms, quantifiable := true } hesc
      (fun x hx => hall x (List.mem_cons_of_mem _ hx))
    refine ⟨q, ?_⟩
    rw [hq]
    simp

theorem seqOf_reverse (cs : List Char) : seqOf (cs.map Regex.chr).reverse = literal cs := by
  unfold seqOf literal
  rw [List.foldl_reverse, List.foldr_map]

theorem readPattern_plain (source : String) (h : ∀ c ∈ source.data, isSyntaxChar c = false) :
    readPattern source = some (literal source.data) := by
  unfold readPattern
  obtain ⟨q, hq⟩ := foldl_readChar_plain source.data ⟨[], [], [], false, false⟩ rfl h
  rw [hq]
  simp only [List.append_nil, groupOf, List.foldl_nil, seqOf_reverse]

theorem lens_literal :
    ∀ (cs s : List Char),
      lens true (literal cs) s = if startsWithAnyCase cs s = true then [cs.length] else [] := by
  intro cs
  induction cs with
  | nil =>
    intro s
    simp [literal, lens, startsWithAnyCase]
  | cons p ps ih =>
    intro s
    have hl : literal (p :: ps) = Regex.seq (Regex.chr p) (literal ps) := rfl
    rw [hl]
    cases s with
    | nil => simp [lens, startsWithAnyCase]
    | cons c cs' =>
      simp only [lens, startsWithAnyCase, charMatches, if_true]
      by_cases hpc : p.toUpper = c.toUpper
      · simp only [hpc, decide_True, if_true, List.flatMap_cons, List.flatMap_nil,
          List.append_nil, List.drop_succ_cons, List.drop_zero, Bool.true_and, ih cs']
        split <;> simp [Nat.add_comm]
      · simp [hpc]

theorem literal_matchAt (cs t : List Char) (i : Nat) :
    (Regex.compile true (literal cs)).matchAt t i
      = if i ≤ t.length ∧ startsWithAnyCase cs (t.drop i) = true then some cs.length
        else none := by
  show Regex.matchAt true (literal cs) t i = _
  unfold Regex.matchAt
  by_cases hi : i ≤ t.length
  · simp only [hi, if_true, true_and, lens_literal]
    split <;> rfl
  · simp [hi]

theorem isSyntaxChar_toUpper (c : Char) (hc : isSyntaxChar c = false) :
    isSyntaxChar c.toUpper = false := by
  by_cases h : (c.toNat ≥ 97 ∧ c.toNat ≤ 122)
  · have h1 : c.toUpper = Char.ofNat (c.toNat - 32) := by
      simp only [Char.toUpper, h, and_self, if_true]
    rw [h1]
    obtain ⟨lo, hi⟩ := h
    generalize c.toNat = n at lo hi
    interval_cases n <;> rfl
  · have h1 : c.toUpper = c := by
      simp only [Char.toUpper, h, if_false]
    rw [h1]
    exact hc

theorem startsWithAnyCase_upper :
    ∀ (cs s : List Char),
      startsWithAnyCase (cs.map Char.toUpper) s = startsWithAnyCase cs s := by
  intro cs
  induction cs with
  | nil =>
    intro s
    rfl
  | cons p ps ih =>
    intro s
    cases s with
    | nil => rfl
    | cons c cs' => simp only [List.map_cons, startsWithAnyCase, toUpper_toUpper, ih cs']

theorem isPlain_chars (keyword : String) (h : isPlain keyword = true) :
    ∀ c ∈ keyword.data, c.toNat < 128 ∧ isSyntaxChar c = false := by
  intro c hc
  simp only [isPlain, List.all_eq_true, Bool.and_eq_true, decide_eq_true_eq,
    Bool.not_eq_true'] at h
  exact h c hc

theorem toUpperCase_plain (keyword : String) (h : isPlain keyword = true) :
    miniHost.toUpperCase keyword = ⟨keyword.data.map Char.toUpper⟩ := by
  show String.mk (keyword.data.flatMap upperChar) = ⟨keyword.data.map Char.toUpper⟩
  congr 1
  have hall := isPlain_chars keyword h
  generalize keyword.data = l at hall
  induction l with
  | nil => rfl
  | cons c cs ih =>
    have hc : c ≠ '\u00df' := by
      intro he
      have := (hall c (List.mem_cons_self _ _)).1
      rw [he] at this
      exact absurd this (by decide)
    simp only [List.flatMap_cons, List.map_cons, upperChar, hc, if_false,
      List.singleton_append, ih (fun x hx => hall x (List.mem_cons_of_mem _ hx))]

theorem plain_matcher (keyword : String) (h : isPlain keyword = true) (m : Matcher)
    (hm : miniHost.newRegExp (miniHost.toUpperCase keyword) ⟨true, true⟩ = some m)
    (t : List Char) (i : Nat) :
    m.matchAt t i
      = if i ≤ t.length ∧ startsWithAnyCase keyword.data (t.drop i) = true then
          some keyword.length
        else none := by
  have hall := isPlain_chars keyword h
  have hread : readPattern (miniHost.toUpperCase keyword)
      = some (literal (keyword.data.map Char.toUpper)) := by
    rw [toUpperCase_plain keyword h]
    apply readPattern_plain
    intro c hc
    obtain ⟨x, hx, rfl⟩ := List.mem_map.mp hc
    exact isSyntaxChar_toUpper x (hall x hx).2
  have hm' : (readPattern (miniHost.toUpperCase keyword)).map (Regex.compile true) = some m := hm
  rw [hread] at hm'
  simp only [Option.map_some', Option.some.injEq] at hm'
  rw [← hm', literal_matchAt, startsWithAnyCase_upper, List.length_map]
  rfl

theorem plain_matcher_occurs (keyword text : String) (h : isPlain keyword = true) (m : Matcher)
    (hm : miniHost.newRegExp (miniHost.toUpperCase keyword) ⟨true, true⟩ = some m) (i : Nat) :
    (occursAt keyword text i = true → m.matchAt text.data i = some keyword.length) ∧
      (∀ n, m.matchAt text.data i = some n → occursAt keyword text i = true ∧
        n = keyword.length) := by
  rw [plain_matcher keyword h m hm]
  have hl : text.length = text.data.length := rfl
  unfold occursAt
  rw [hl]
  by_cases hc : i ≤ text.data.length ∧ startsWithAnyCase keyword.data (text.data.drop i) = true
  · simp [hc]
  · simp only [hc, if_false]
    constructor
    · intro ho
      simp only [Bool.and_eq_true, decide_eq_true_eq] at ho
      exact absurd ho hc
    · intro n hn
      cases hn

theorem rangeOptionOf_not_inherited (mathes : Obj (List Decoration)) (v : String)
    (h : isInherited v = false) :
    rangeOptionOf mathes v = RangeOption.ranges (rangesOf mathes v) := by
  unfold rangeOptionOf rangesOf
  cases Obj.get mathes v <;> simp [h]

theorem trimTruthy_length (keyword : String) (h : trimTruthy keyword = true) :
    1 ≤ keyword.length := by
  have hl : keyword.length = keyword.data.length := rfl
  rw [hl]
  unfold trimTruthy at h
  cases hd : keyword.data with
  | nil =>
    rw [hd] at h
    cases h
  | cons c cs =>
    simp

/-- C3, amended: multi-keyword mode, `isCaseSensitive` false, highlighting
enabled, a configuration that compiles and in which no matcher can match the
empty string.  For a keyword of ASCII characters without pattern syntax,
`updateDecorations` returns within `text.length + 2` iterations per loop; the
ranges stored under the one class key `toUpperCase(keyword)` are handed in one
call to the one decoration of that class; they do not overlap; each of them
spans an occurrence of the keyword in some letter case; and every occurrence
of the keyword, whatever its letter case, starts one of these ranges or lies
inside one that starts earlier. -/
theorem keyword_occurrences_unified (s0 s : State) (text : String) (rule : KeywordRule)
    (fuel : Nat)
    (hcs : s0.settings.isCaseSensitive = false)
    (hmode : trimTruthy s0.settings.keywordsPattern = false)
    (hen : s0.settings.isEnable = true)
    (hed : s0.activeEditor = some text)
    (hinit : init miniHost s0.settings s0 = Outcome.done s)
    (hne : ∀ p, PatternEntry.compiled p ∈ s.patterns →
      ∀ t i, p.regexp.matcher.matchAt t i ≠ some 0)
    (hrule : rule ∈ s0.settings.keywords) (hkw : trimTruthy rule.keyword = true)
    (hplain : isPlain rule.keyword = true)
    (hfuel : text.length + 2 ≤ fuel) :
    ∃ dt r s' new,
      Obj.get s.decorationTypes (miniHost.toUpperCase rule.keyword) = some dt ∧
      scan s text fuel = Outcome.done r ∧
      updateDecorations miniHost fuel s = Outcome.done s' ∧
      s'.calls = s.calls ++ new ∧
      (some dt.target, RangeOption.ranges (rangesOf r.2.mathes (miniHost.toUpperCase rule.keyword))) ∈ new ∧
      (rangesOf r.2.mathes (miniHost.toUpperCase rule.keyword)).Pairwise
        (fun a b => a.range.endOffset ≤ b.range.startOffset) ∧
      (∀ d ∈ rangesOf r.2.mathes (miniHost.toUpperCase rule.keyword),
        occursAt rule.keyword text d.range.startOffset = true ∧
          d.range.endOffset = d.range.startOffset + rule.keyword.length) ∧
      ∀ i, occursAt rule.keyword text i = true →
        ∃ d ∈ rangesOf r.2.mathes (miniHost.toUpperCase rule.keyword),
          d.range.startOffset ≤ i ∧ i < d.range.endOffset := by
  obtain ⟨i1, i2, _, i4, i5, i6, i7, i8, i9⟩ :=
    init_multi_insensitive miniHost s0 s miniHost_toUpperCase_idem
      miniHost_toUpperCase_not_inherited hcs hmode hinit
  obtain ⟨hkey, m, hm, hmem⟩ := i9 rule hrule hkw
  obtain ⟨hnorm, hget⟩ := i8 _ hkey
  have hed' : s.activeEditor = some text := i2.trans hed
  have hen' : s.settings.isEnable = true := by rw [i1]; exact hen
  have hninh := miniHost_toUpperCase_not_inherited rule.keyword
  have hocc := plain_matcher_occurs rule.keyword text hplain m hm
  have hlen := trimTruthy_length rule.keyword hkw
  cases hdt : Obj.get s.decorationTypes (miniHost.toUpperCase rule.keyword) with
  | none => exact absurd hdt hget
  | some dt =>
    obtain ⟨r, hr⟩ := forPatterns_returns s text fuel (by omega) s.patterns
      ⟨[], s.decorationTypes, s.created⟩
      (fun e he => by
        obtain ⟨p, rfl, hp⟩ := i7 e he
        exact ⟨p, rfl, hp, hne p he⟩)
    have hdts : r.2.decorationTypes = s.decorationTypes := by
      have h := (forPatterns_multi s text fuel i5 s.patterns
        ⟨[], s.decorationTypes, s.created⟩).1
      rw [hr] at h
      exact h
    obtain ⟨calls, hcalls⟩ := forEachKey_resolves miniHost s r.2.mathes r.2.decorationTypes
      (Obj.keys r.2.decorationTypes) s.calls
      (fun v hv => by
        rw [hdts] at hv ⊢
        rw [i4, (i8 v hv).1]
        exact (i8 v hv).2)
    obtain ⟨new, h1, h2⟩ := forEachKey_done_calls miniHost s r.2.mathes r.2.decorationTypes
      _ _ _ hcalls
    have hscan : rangesOf r.2.mathes (miniHost.toUpperCase rule.keyword)
        = successiveMatches text fuel
            ⟨miniHost.toUpperCase rule.keyword, ⟨true, true⟩, m, 0⟩ := by
      have h := (forPatterns_done_mathes s text fuel s.patterns _ r hr i6).1 _ hmem
      simpa [rangesOf, Obj.get] using h
    have hupd : updateDecorations miniHost fuel s = Outcome.done (afterScan s r calls) := by
      unfold updateDecorations
      rw [hed']
      simp only [scan, hr, hcalls]
    have hcall := h2 (miniHost.toUpperCase rule.keyword) (by rw [hdts]; exact hkey) dt
      (by rw [i4, hnorm, hdts]; exact hdt)
    rw [i4, hnorm, hen', if_pos rfl, rangeOptionOf_not_inherited _ _ hninh] at hcall
    obtain ⟨hpair, hall⟩ := successiveMatches_spec text fuel
      ⟨miniHost.toUpperCase rule.keyword, ⟨true, true⟩, m, 0⟩
    refine ⟨dt, r, afterScan s r calls, new, rfl, hr, hupd, h1, hcall, ?_, ?_, ?_⟩
    · rw [hscan]
      exact hpair
    · intro d hd
      rw [hscan] at hd
      obtain ⟨_, _, n, hn, hend⟩ := hall d hd
      obtain ⟨ho, hnl⟩ := (hocc d.range.startOffset).2 n hn
      exact ⟨ho, by rw [hend, hnl]⟩
    · intro i hi
      have hmatch := (hocc i).1 hi
      have hile : i ≤ text.length := by
        unfold occursAt at hi
        simp only [Bool.and_eq_true, decide_eq_true_eq] at hi
        exact hi.1
      obtain ⟨d, hd, hd1, hd2⟩ := forPatterns_done_covers s text fuel s.patterns _ r hr _ hmem
        i (Nat.zero_le i) hile (by rw [hmatch]; simp)
      rw [← hscan] at hd
      refine ⟨d, hd, hd1, ?_⟩
      rcases hd2 with rfl | hlt
      · rw [hscan] at hd
        obtain ⟨_, _, n, hn, hend⟩ := hall d hd
        obtain ⟨_, hnl⟩ := (hocc d.range.startOffset).2 n hn
        omega
      · exact hlt

theorem todo_matcher_nonempty :
    ∀ p, PatternEntry.compiled p ∈ (activated miniHost (Settings.plain true false "" ["TODO"]) (some "todo TODO ToDo")).state.patterns →
      ∀ t i, p.regexp.matcher.matchAt t i ≠ some 0 := by
  intro p hp t i
  have hp' : PatternEntry.compiled p
      ∈ [PatternEntry.compiled
          ⟨"TODO", ⟨"TODO", ⟨true, true⟩, Regex.compile true (literal "TODO".data), 0⟩⟩] := hp
  simp only [List.mem_singleton, PatternEntry.compiled.injEq] at hp'
  rw [hp']
  show (Regex.compile true (literal "TODO".data)).matchAt t i ≠ some 0
  rw [literal_matchAt]
  split <;> simp

/-- Witness of C3 amended: the keyword `TODO`, not case sensitive, and the
document `todo TODO ToDo`: the three occurrences are the three ranges stored
under the key `TODO` and handed to the one decoration of the class. -/
theorem keyword_occurrences_unified_witness :
    (State.atActivation (Settings.plain true false "" ["TODO"]) (some "todo TODO ToDo")).settings.isCaseSensitive = false ∧
    trimTruthy (State.atActivation (Settings.plain true false "" ["TODO"]) (some "todo TODO ToDo")).settings.keywordsPattern = false ∧
    (State.atActivation (Settings.plain true false "" ["TODO"]) (some "todo TODO ToDo")).settings.isEnable = true ∧
    (State.atActivation (Settings.plain true false "" ["TODO"]) (some "todo TODO ToDo")).activeEditor = some "todo TODO ToDo" ∧
    init miniHost (State.atActivation (Settings.plain true false "" ["TODO"]) (some "todo TODO ToDo")).settings
        (State.atActivation (Settings.plain true false "" ["TODO"]) (some "todo TODO ToDo"))
      = Outcome.done (activated miniHost (Settings.plain true false "" ["TODO"]) (some "todo TODO ToDo")).state ∧
    (∀ p, PatternEntry.compiled p ∈ (activated miniHost (Settings.plain true false "" ["TODO"]) (some "todo TODO ToDo")).state.patterns →
      ∀ t i, p.regexp.matcher.matchAt t i ≠ some 0) ∧
    (KeywordRule.mk "TODO" []) ∈ (State.atActivation (Settings.plain true false "" ["TODO"]) (some "todo TODO ToDo")).settings.keywords ∧
    trimTruthy (KeywordRule.mk "TODO" []).keyword = true ∧
    isPlain (KeywordRule.mk "TODO" []).keyword = true ∧
    "todo TODO ToDo".length + 2 ≤ 16 ∧
    (∃ dt r s' new,
      Obj.get (activated miniHost (Settings.plain true false "" ["TODO"]) (some "todo TODO ToDo")).state.decorationTypes (miniHost.toUpperCase (KeywordRule.mk "TODO" []).keyword) = some dt ∧
      scan (activated miniHost (Settings.plain true false "" ["TODO"]) (some "todo TODO ToDo")).state "todo TODO ToDo" 16 = Outcome.done r ∧
      updateDecorations miniHost 16 (activated miniHost (Settings.plain true false "" ["TODO"]) (some "todo TODO ToDo")).state = Outcome.done s' ∧
      s'.calls = (activated miniHost (Settings.plain true false "" ["TODO"]) (some "todo TODO ToDo")).state.calls ++ new ∧
      (some dt.target, RangeOption.ranges (rangesOf r.2.mathes (miniHost.toUpperCase (KeywordRule.mk "TODO" []).keyword))) ∈ new ∧
      (rangesOf r.2.mathes (miniHost.toUpperCase (KeywordRule.mk "TODO" []).keyword)).Pairwise
        (fun a b => a.range.endOffset ≤ b.range.startOffset) ∧
      (∀ d ∈ rangesOf r.2.mathes (miniHost.toUpperCase (KeywordRule.mk "TODO" []).keyword),
        occursAt (KeywordRule.mk "TODO" []).keyword "todo TODO ToDo" d.range.startOffset = true ∧
          d.range.endOffset = d.range.startOffset + (KeywordRule.mk "TODO" []).keyword.length) ∧
      ∀ i, occursAt (KeywordRule.mk "TODO" []).keyword "todo TODO ToDo" i = true →
        ∃ d ∈ rangesOf r.2.mathes (miniHost.toUpperCase (KeywordRule.mk "TODO" []).keyword),
          d.range.startOffset ≤ i ∧ i < d.range.endOffset) ∧
    (scan (activated miniHost (Settings.plain true false "" ["TODO"]) (some "todo TODO ToDo")).state
        "todo TODO ToDo" 16).state.2.mathes
      = [("TODO", [⟨⟨0, 4⟩⟩, ⟨⟨5, 9⟩⟩, ⟨⟨10, 14⟩⟩])] ∧
    (updateDecorations miniHost 16
        (activated miniHost (Settings.plain true false "" ["TODO"]) (some "todo TODO ToDo")).state).state.calls
      = [(some 0, RangeOption.ranges [⟨⟨0, 4⟩⟩, ⟨⟨5, 9⟩⟩, ⟨⟨10, 14⟩⟩])] :=
  ⟨rfl, rfl, rfl, rfl, rfl, todo_matcher_nonempty, by decide, by decide, by decide, by decide,
    keyword_occurrences_unified
      (State.atActivation (Settings.plain true false "" ["TODO"]) (some "todo TODO ToDo"))
      _ "todo TODO ToDo" (KeywordRule.mk "TODO" []) 16 rfl rfl rfl rfl rfl todo_matcher_nonempty
      (by decide) (by decide) (by decide) (by decide),
    by decide, by decide⟩

/-- C3, refuted as stated: with the keyword `straße`, not case sensitive, the
class key and the pattern are `STRASSE`; the document `straße` holds the
keyword at offset 0, and the scan returns without any range: the decoration
of the class receives the empty list. -/
theorem sharp_s_keyword_unrecorded :
    (activated miniHost (Settings.plain true false "" ["stra\u00dfe"])
        (some "stra\u00dfe")).isDone = true ∧
    occursAt "stra\u00dfe" "stra\u00dfe" 0 = true ∧
    Obj.keys (activated miniHost (Settings.plain true false "" ["stra\u00dfe"]) (some "stra\u00dfe")).state.decorationTypes
      = ["STRASSE"] ∧
    (activated miniHost (Settings.plain true false "" ["stra\u00dfe"]) (some "stra\u00dfe")).state.patterns.map
        PatternEntry.source = ["STRASSE"] ∧
    (scan (activated miniHost (Settings.plain true false "" ["stra\u00dfe"]) (some "stra\u00dfe")).state
        "stra\u00dfe" 8).isDone = true ∧
    (scan (activated miniHost (Settings.plain true false "" ["stra\u00dfe"]) (some "stra\u00dfe")).state
        "stra\u00dfe" 8).state.2.mathes = [] ∧
    (updateDecorations miniHost 8
        (activated miniHost (Settings.plain true false "" ["stra\u00dfe"]) (some "stra\u00dfe")).state).isDone
      = true ∧
    (updateDecorations miniHost 8
        (activated miniHost (Settings.plain true false "" ["stra\u00dfe"]) (some "stra\u00dfe")).state).state.calls
      = [(some 0, RangeOption.ranges [])] := by
  decide

end TodoHighlight
